import Mathlib

/-!
Shallow embedding of the Dynamic RAG document-indexing and hybrid-retrieval
core (Python sources under `app/`), together with theorems settling the
frozen specification claims.  Machine floats are modelled as rationals,
Python dictionaries keyed by id as insertion-ordered association lists, and
fallible calls as `Except`-valued functions; external collaborators
(the Ollama embedding provider, the Qdrant client, the Redis connection,
the langchain text splitter) are passed in as explicit function parameters.
-/

namespace DynamicRag

/-! ## Result cache (`app/services/cache/redis_cache.py`) -/

/-- Outcome of a raw backend operation: success, or a raised backend error
(the exception message). -/
inductive ROut (α : Type) where
  | ok : α → ROut α
  | err : String → ROut α
deriving DecidableEq

/-- The raw Redis connection held in `CacheService.redis`: `GET` returns the
stored string (or `none` for a missing key) and `SETEX` stores a string with a
TTL; either call may raise. -/
structure RedisConn where
  rget : String → ROut (Option String)
  rsetex : String → Nat → String → ROut Unit

/-- `CacheService.get`: returns `None` when no connection is held, when the
backend raises, when the key is absent or holds a falsy (empty) string, or
when JSON decoding raises; otherwise the decoded value.  `decode` stands for
`json.loads`. -/
def cacheGet (conn : Option RedisConn) (decode : String → ROut String) (key : String) :
    Option String :=
  match conn with
  | none => none
  | some r =>
    match r.rget key with
    | .err _ => none
    | .ok none => none
    | .ok (some v) =>
      if v = "" then none
      else
        match decode v with
        | .err _ => none
        | .ok j => some j

/-- `ttl = ttl or self.default_ttl`: Python treats both `None` and `0` as
falsy, substituting the default of 3600 seconds. -/
def effectiveTtl : Option Nat → Nat
  | none => 3600
  | some 0 => 3600
  | some (n + 1) => n + 1

/-- `CacheService.set`: returns `False` when no connection is held, when
serialization raises, or when the backend `SETEX` raises; `True` on success.
`enc` stands for the `json.dumps` outcome for the value being cached. -/
def cacheSet (conn : Option RedisConn) (enc : ROut String) (key : String)
    (ttl : Option Nat) : Bool :=
  match conn with
  | none => false
  | some r =>
    match enc with
    | .err _ => false
    | .ok s =>
      match r.rsetex key (effectiveTtl ttl) s with
      | .err _ => false
      | .ok _ => true

/-! ## Vector store (`app/services/retrieval/vector_store.py`) -/

/-- A JSON-like payload value. -/
inductive PVal where
  | str : String → PVal
  | nat : Nat → PVal
  | null : PVal
deriving DecidableEq

/-- A Qdrant point payload: a JSON-like map. -/
abbrev Payload := List (String × PVal)

/-- A stored Qdrant point. -/
structure VPoint where
  id : String
  vector : List ℚ
  payload : Payload
deriving DecidableEq

/-- Qdrant upsert of one point: a point with the same id is replaced in
place, otherwise the point is appended. -/
def upsertOne (store : List VPoint) (p : VPoint) : List VPoint :=
  if store.any (fun q => q.id = p.id) then
    store.map (fun q => if q.id = p.id then p else q)
  else store ++ [p]

/-- Qdrant upsert of a batch of points, in order. -/
def upsertPoints (store : List VPoint) (pts : List VPoint) : List VPoint :=
  pts.foldl upsertOne store

/-- `VectorStoreService.upsert_vectors`: rejects a vectors/payloads length
mismatch, generates ids (via the supplied uuid source) when none are given,
rejects an ids/vectors length mismatch, and otherwise upserts the zipped
points, returning the new store contents and the ids used.  An `.error`
result models the raised `VectorStoreException`; no point is written in that
case (the caller's store is untouched). -/
def upsert_vectors (uuidGen : Nat → String) (store : List VPoint)
    (vectors : List (List ℚ)) (payloads : List Payload)
    (ids : Option (List String)) : Except String (List VPoint × List String) :=
  if vectors.length ≠ payloads.length then
    .error "Vectors and payloads must have same length"
  else
    let ids' := match ids with
      | none => (List.range vectors.length).map uuidGen
      | some l => l
    if ids'.length ≠ vectors.length then
      .error "IDs, vectors, and payloads must have same length"
    else
      let pts := (ids'.zip (vectors.zip payloads)).map
        (fun x => VPoint.mk x.1 x.2.1 x.2.2)
      .ok (upsertPoints store pts, ids')

/-- A Qdrant `Filter` of `must` field conditions: a conjunction of
exact-match `field == value` conditions. -/
abbrev VFilter := List (String × PVal)

/-- A point matches a filter when every field condition matches its payload. -/
def matchesFilter (p : Payload) (f : VFilter) : Bool :=
  f.all (fun kv => p.lookup kv.1 = some kv.2)

/-- Python truthiness of an optional list argument: `None` and the empty
list are both falsy. -/
def truthyList {α : Type} : Option (List α) → Bool
  | none => false
  | some [] => false
  | some (_ :: _) => true

/-- `VectorStoreService.delete_vectors`: with neither (truthy) ids nor
(truthy) filter conditions it raises before any store call; with ids it
deletes those points and returns the id-list length; otherwise it deletes by
filter and returns 0 (Qdrant reports no count for filter deletion). -/
def delete_vectors (store : List VPoint) (vector_ids : Option (List String))
    (filter_conditions : Option VFilter) :
    Except String (List VPoint × Nat) :=
  if truthyList vector_ids = false ∧ truthyList filter_conditions = false then
    .error "Must provide either vector_ids or filter_conditions"
  else if truthyList vector_ids then
    let l := vector_ids.getD []
    .ok (store.filter (fun p => ¬ p.id ∈ l), l.length)
  else
    let f := filter_conditions.getD []
    .ok (store.filter (fun p => ¬ matchesFilter p.payload f), 0)

/-! ## Python string helpers -/

/-- Python `str.lower` (character-wise case mapping). -/
def pyLower (s : String) : String := ⟨s.data.map Char.toLower⟩

/-- Python blank test `not text or not text.strip()`: true exactly when every
character is whitespace (including the empty string). -/
def pyBlank (s : String) : Bool := s.data.all Char.isWhitespace

/-- Helper for `pyWords`: scans the characters, accumulating the current word
in reverse. -/
def wordsAux : List Char → List Char → List (List Char)
  | [], [] => []
  | [], acc => [acc.reverse]
  | c :: rest, acc =>
    if c.isWhitespace then
      match acc with
      | [] => wordsAux rest []
      | _ :: _ => acc.reverse :: wordsAux rest []
    else wordsAux rest (c :: acc)

/-- Python `str.split()` with no argument: splits on runs of whitespace and
never yields empty words. -/
def pyWords (s : String) : List String :=
  (wordsAux s.data []).map (fun cs => ⟨cs⟩)

/-! ## Embedding gateway (`app/services/retrieval/embedding.py`) -/

/-- `EmbeddingService.generate_embedding`.  `provider` is the external Ollama
embeddings call after the retry decorator has run (its `.error` is the
post-retry provider failure).  Returns the outcome together with the list of
texts actually sent to the provider, so that absence of provider calls is
observable.  Blank input is rejected before any provider call; a provider
failure or an empty returned embedding is re-raised as an
`EmbeddingException` (modelled by the `.error` message). -/
def generate_embedding (provider : String → Except String (List ℚ))
    (text : String) : Except String (List ℚ) × List String :=
  if pyBlank text then
    (.error "Cannot generate embedding for empty text", [])
  else
    match provider text with
    | .error e => (.error ("Failed to generate embedding: " ++ e), [text])
    | .ok emb =>
      if emb.isEmpty then
        (.error "Failed to generate embedding: No embedding returned from Ollama", [text])
      else (.ok emb, [text])

/-- The inner loop of the batch variant: embed each text in order, aborting
on the first failure. -/
def embedSeq (provider : String → Except String (List ℚ)) :
    List String → Except String (List (List ℚ)) × List String
  | [] => (.ok [], [])
  | t :: ts =>
    match generate_embedding provider t with
    | (.error e, c) => (.error e, c)
    | (.ok emb, c) =>
      match embedSeq provider ts with
      | (.error e, cs) => (.error e, c ++ cs)
      | (.ok embs, cs) => (.ok (emb :: embs), c ++ cs)

/-- `batch_size = batch_size or settings.EMBEDDING_BATCH_SIZE`: `None` and
`0` are falsy, and the settings default is 32. -/
def effectiveBatchSize : Option ℕ → ℕ
  | none => 32
  | some 0 => 32
  | some (n + 1) => n + 1

/-- The outer loop `for i in range(0, len(texts), batch_size)` of the batch
variant: processes `batch_size` texts at a time (Python's `range` rejects a
zero step). -/
def batchLoop (provider : String → Except String (List ℚ)) (bs : ℕ) :
    List String → Except String (List (List ℚ)) × List String
  | [] => (.ok [], [])
  | t :: ts =>
    if bs = 0 then (.error "range() arg 3 must not be zero", [])
    else
      match embedSeq provider ((t :: ts).take bs) with
      | (.error e, c) => (.error e, c)
      | (.ok embs, c) =>
        match batchLoop provider bs ((t :: ts).drop bs) with
        | (.error e, cs) => (.error e, c ++ cs)
        | (.ok more, cs) => (.ok (embs ++ more), c ++ cs)
termination_by l => l.length
decreasing_by
  simp only [List.length_drop, List.length_cons]
  omega

/-- `EmbeddingService.generate_embeddings_batch`: an empty input list returns
immediately; otherwise the texts are embedded in order, `batch_size` at a
time. -/
def generate_embeddings_batch (provider : String → Except String (List ℚ))
    (texts : List String) (batch_size : Option ℕ) :
    Except String (List (List ℚ)) × List String :=
  if texts.isEmpty then (.ok [], [])
  else batchLoop provider (effectiveBatchSize batch_size) texts

/-! ## Reranker (`app/services/retrieval/reranker.py`) -/

/-- A search result record as passed between retrieval stages: an id, a
score, and a payload (`{"id": ..., "score": ..., "payload": ...}`). -/
structure SResult where
  id : String
  score : ℚ
  payload : Payload
deriving DecidableEq

/-- `result.get("payload", {}).get("content", "")`. -/
def payloadContent (p : Payload) : String :=
  match p.lookup "content" with
  | some (.str s) => s
  | _ => ""

/-- `RerankerService.calculate_query_overlap`: the fraction of the distinct
lower-cased query terms that also occur in the document, 0 for a query with
no terms. -/
def calculate_query_overlap (query document : String) : ℚ :=
  let qterms := (pyWords (pyLower query)).dedup
  let dterms := (pyWords (pyLower document)).dedup
  if qterms.isEmpty then 0
  else ((qterms.filter (fun t => t ∈ dterms)).length : ℚ) / (qterms.length : ℚ)

/-- `RerankerService.calculate_length_penalty` with the default optimal
length of 500 words. -/
def calculate_length_penalty (document : String) (optimal_length : ℕ := 500) : ℚ :=
  let doc_length := (pyWords document).length
  if doc_length < 50 then 1 / 2
  else
    let length_ratio : ℚ := ((min doc_length optimal_length : ℕ) : ℚ) / (optimal_length : ℚ)
    let length_ratio :=
      if doc_length > optimal_length * 2 then length_ratio * (8 / 10) else length_ratio
    min length_ratio 1

/-- The `RankedResult` dataclass. -/
structure RankedResult where
  id : String
  content : String
  original_score : ℚ
  rerank_score : ℚ
  final_score : ℚ
  metadata : Payload
deriving DecidableEq

/-- The loop body of `RerankerService.rerank`: scores one search result. -/
def scoreResult (query : String) (vector_weight overlap_weight length_weight : ℚ)
    (r : SResult) : RankedResult :=
  let content := payloadContent r.payload
  let overlap_score := calculate_query_overlap query content
  let length_score := calculate_length_penalty content
  { id := r.id
    content := content
    original_score := r.score
    rerank_score := overlap_score
    final_score := vector_weight * r.score + overlap_weight * overlap_score +
      length_weight * length_score
    metadata := r.payload }

/-- `RerankerService.rerank`: scores every result, sorts by final score
descending (stably, as Python's `sort` with `reverse=True`), and keeps the
top `top_k`. -/
def rerank (query : String) (results : List SResult) (top_k : ℕ := 5)
    (vector_weight : ℚ := 7 / 10) (overlap_weight : ℚ := 2 / 10)
    (length_weight : ℚ := 1 / 10) : List RankedResult :=
  if results.isEmpty then []
  else
    let ranked := results.map (scoreResult query vector_weight overlap_weight length_weight)
    (ranked.mergeSort (fun a b => decide (b.final_score ≤ a.final_score))).take top_k

/-! ## Stage A fusion (`app/services/retrieval/hybrid_retrieval.py`) -/

/-- `max(r["score"] for r in results)` (0 for the empty list, which the code
never asks for). -/
def maxScore (rs : List SResult) : ℚ :=
  match rs.map SResult.score with
  | [] => 0
  | x :: xs => xs.foldl max x

/-- The inner `normalize_scores` helper of `_combine_results`: pairs every
result with its `normalized_score` key — absent when the list is empty or
its maximum score is zero, otherwise `score / max`. -/
def normalize_scores (rs : List SResult) : List (SResult × Option ℚ) :=
  match rs with
  | [] => []
  | _ :: _ =>
    if maxScore rs = 0 then rs.map (fun r => (r, none))
    else rs.map (fun r => (r, some (r.score / maxScore rs)))

/-- `result.get("normalized_score", result["score"])`. -/
def effScore (x : SResult × Option ℚ) : ℚ := x.2.getD x.1.score

/-- Membership test of an id in the insertion-ordered dict `combined`. -/
def dictMember (acc : List SResult) (i : String) : Bool :=
  acc.any (fun c => c.id = i)

/-- `combined[result_id] = entry`: replaces in place if the id is present,
otherwise appends (Python dict insertion order). -/
def dictSet (acc : List SResult) (e : SResult) : List SResult :=
  if dictMember acc e.id then acc.map (fun c => if c.id = e.id then e else c)
  else acc ++ [e]

/-- `combined[result_id]["score"] += s`. -/
def dictAddScore (acc : List SResult) (i : String) (s : ℚ) : List SResult :=
  acc.map (fun c => if c.id = i then { c with score := c.score + s } else c)

/-- The body of the second (BM25) loop of `_combine_results`. -/
def bmStep (bm25_weight : ℚ) (acc : List SResult) (x : SResult × Option ℚ) :
    List SResult :=
  if dictMember acc x.1.id then dictAddScore acc x.1.id (bm25_weight * effScore x)
  else acc ++ [⟨x.1.id, bm25_weight * effScore x, x.1.payload⟩]

/-- `HybridRetrievalService._combine_results`: normalize both lists, seed the
insertion-ordered dict with the weighted vector results, then fold the BM25
results in, adding to ids already present and appending new ids. -/
def combine_results (vector_results bm25_results : List SResult)
    (vector_weight : ℚ := 7 / 10) (bm25_weight : ℚ := 3 / 10) : List SResult :=
  let vn := normalize_scores vector_results
  let bn := normalize_scores bm25_results
  let combined := vn.foldl
    (fun acc x => dictSet acc ⟨x.1.id, vector_weight * effScore x, x.1.payload⟩) []
  bn.foldl (bmStep bm25_weight) combined

/-- The ids of a result list, in order. -/
def resIds (l : List SResult) : List String := l.map SResult.id

/-- Written from the spec's words, for comparison with the code: the
normalized score of a member of a candidate list is its score divided by the
list's maximum score, normalization being skipped when that maximum is
zero. -/
def specNormalizedScore (rs : List SResult) (r : SResult) : ℚ :=
  if maxScore rs = 0 then r.score else r.score / maxScore rs

/-! ## Chunker (`app/services/ingestion/chunker.py`) -/

/-- A chunk record produced by the chunker: `content`, the per-call
`chunk_index`, `total_chunks`, `chunk_size`, and the two metadata fields the
claims depend on — the `page` metadata entry and the `global_chunk_index`
key added by the page-aware variant. -/
structure ChunkRec where
  content : String
  chunk_index : ℕ
  total_chunks : ℕ
  chunk_size : ℕ
  page : Option ℕ
  global_chunk_index : Option ℕ
deriving DecidableEq

/-- `DocumentChunker.chunk_text`: blank input yields no chunks; otherwise
the external langchain splitter `split` produces the pieces, which are
enumerated into chunk records.  `page` is the `page` entry of the metadata
attached to every chunk (absent when the metadata has no such key). -/
def chunk_text (split : String → List String) (text : String) (page : Option ℕ) :
    List ChunkRec :=
  if pyBlank text then []
  else
    let cs := split text
    cs.enum.map (fun x => ⟨x.2, x.1, cs.length, x.2.length, page, none⟩)

/-- The page loop of `chunk_document_with_pages`: pages are numbered from
`pageNum`, blank pages are skipped, each page's chunks get
`global_chunk_index` set to their position in the accumulated output. -/
def chunkPagesGo (split : String → List String) :
    ℕ → List ChunkRec → List String → List ChunkRec
  | _, acc, [] => acc
  | pageNum, acc, ptext :: rest =>
    if pyBlank ptext then chunkPagesGo split (pageNum + 1) acc rest
    else
      let pcs := chunk_text split ptext (some pageNum)
      chunkPagesGo split (pageNum + 1)
        (acc ++ pcs.enum.map
          (fun x => { x.2 with global_chunk_index := some (acc.length + x.1) }))
        rest

/-- `DocumentChunker.chunk_document_with_pages`: run the page loop starting
at page 1, then set every chunk's `total_chunks` to the global count. -/
def chunk_document_with_pages (split : String → List String)
    (page_texts : List String) : List ChunkRec :=
  let all := chunkPagesGo split 1 [] page_texts
  all.map (fun c => { c with total_chunks := all.length })

/-! ## Ingestion coordinator (`app/api/v1/endpoints/documents.py`) -/

/-- The mutable Document fields touched by the background processing task. -/
structure DocState where
  status : String
  error_message : Option String
  retry_count : ℕ
  total_chunks : ℕ
  total_pages : ℕ
  total_characters : ℕ
deriving DecidableEq

/-- A persisted relational Chunk row. -/
structure ChunkRow where
  id : String
  document_id : String
  content : String
  chunk_index : ℕ
  chunk_size : ℕ
  page_number : Option ℕ
  vector_id : String
deriving DecidableEq

/-- The stores the coordinator writes to: the Document row, the Chunk rows,
and the Qdrant collection. -/
structure World where
  doc : DocState
  rows : List ChunkRow
  vstore : List VPoint
deriving DecidableEq

/-- The external collaborators of one ingestion run: the langchain splitter,
the parsing collaborator's outcome `(text, num_pages, used_ocr)`, the
embedding provider, and the outcome of the final relational commit. -/
structure IngestEnv where
  split : String → List String
  parseResult : Except String (String × ℕ × Bool)
  provider : String → Except String (List ℚ)
  commitResult : Except String Unit

/-- The deterministic vector/chunk id `f"{document_id}_chunk_{i}"`. -/
def mkVid (docId : String) (i : ℕ) : String :=
  docId ++ "_chunk_" ++ toString i

/-- The `except` branch of the background task: mark the document FAILED,
record the error message, bump `retry_count`. -/
def failDoc (d : DocState) (e : String) : DocState :=
  { d with status := "failed", error_message := some e,
           retry_count := d.retry_count + 1 }

/-- The vector payload built for chunk `i` during ingestion. -/
def ingestPayload (docId filename : String) (i : ℕ) (c : ChunkRec) : Payload :=
  [("document_id", PVal.str docId), ("chunk_id", PVal.str (mkVid docId i)),
   ("chunk_index", PVal.nat i), ("content", PVal.str c.content),
   ("filename", PVal.str filename), ("page", PVal.null)]

/-- The deterministic vector ids prepared for `n` chunks. -/
def ingestVectorIds (docId : String) (n : ℕ) : List String :=
  (List.range n).map (mkVid docId)

/-- The payloads prepared for the chunks, in order. -/
def ingestPayloads (docId filename : String) (chunks : List ChunkRec) : List Payload :=
  chunks.enum.map (fun x => ingestPayload docId filename x.1 x.2)

/-- The relational Chunk rows persisted in step 5, in order. -/
def ingestRows (docId : String) (chunks : List ChunkRec) : List ChunkRow :=
  chunks.enum.map (fun x =>
    ChunkRow.mk (mkVid docId x.1) docId x.2.content x.2.chunk_index
      x.2.chunk_size x.2.page (mkVid docId x.1))

/-- `process_document_background`: set the document PROCESSING, parse,
chunk, embed, upsert vectors under deterministic ids, add the chunk rows,
and commit the COMPLETED document; any failure is caught, the document is
marked FAILED with the error recorded and `retry_count` incremented, and the
error is re-raised (the `Except` component of the result).  The exception
handler never touches the vector store. -/
def process_document_background (env : IngestEnv) (docId filename : String)
    (w : World) : World × Except String Unit :=
  match env.parseResult with
  | .error e =>
    ({ w with doc := failDoc { w.doc with status := "processing" } e }, .error e)
  | .ok (text, numPages, _usedOcr) =>
    match (generate_embeddings_batch env.provider
        ((chunk_text env.split text none).map ChunkRec.content) none).1 with
    | .error e =>
      ({ w with doc := failDoc { w.doc with status := "processing" } e }, .error e)
    | .ok embeddings =>
      match upsert_vectors (fun _ => "") w.vstore embeddings
          (ingestPayloads docId filename (chunk_text env.split text none))
          (some (ingestVectorIds docId (chunk_text env.split text none).length)) with
      | .error e =>
        ({ w with doc := failDoc { w.doc with status := "processing" } e }, .error e)
      | .ok (vstore2, _) =>
        match env.commitResult with
        | .error e =>
          ({ w with
              doc := failDoc { w.doc with status := "processing" } e,
              vstore := vstore2 }, .error e)
        | .ok _ =>
          ({ doc := { w.doc with
              status := "completed",
              total_chunks := (chunk_text env.split text none).length,
              total_pages := numPages, total_characters := text.length }
             rows := w.rows ++ ingestRows docId (chunk_text env.split text none)
             vstore := vstore2 }, .ok ())

/-! ## Store lemmas -/

/-- Upserting one point never removes an id from the store. -/
lemma mem_ids_upsertOne (store : List VPoint) (p : VPoint) (x : String)
    (hx : x ∈ store.map VPoint.id) : x ∈ (upsertOne store p).map VPoint.id := by
  unfold upsertOne
  split
  · rcases List.mem_map.1 hx with ⟨q, hq, rfl⟩
    refine List.mem_map.2 ?_
    by_cases h : q.id = p.id
    · exact ⟨p, List.mem_map.2 ⟨q, hq, by simp [h]⟩, h.symm⟩
    · exact ⟨q, List.mem_map.2 ⟨q, hq, by simp [h]⟩, rfl⟩
  · exact List.mem_map.2 (by
      rcases List.mem_map.1 hx with ⟨q, hq, rfl⟩
      exact ⟨q, List.mem_append_left _ hq, rfl⟩)

/-- After upserting a point, its id is in the store. -/
lemma id_mem_upsertOne (store : List VPoint) (p : VPoint) :
    p.id ∈ (upsertOne store p).map VPoint.id := by
  unfold upsertOne
  split
  · next h =>
    rcases List.any_eq_true.1 h with ⟨q, hq, hid⟩
    refine List.mem_map.2 ⟨p, List.mem_map.2 ⟨q, hq, ?_⟩, rfl⟩
    simp [of_decide_eq_true hid]
  · exact List.mem_map.2 ⟨p, List.mem_append_right _ (by simp), rfl⟩

/-- Upserting a point whose id is present keeps the id list unchanged. -/
lemma ids_upsertOne_of_mem (store : List VPoint) (p : VPoint)
    (h : p.id ∈ store.map VPoint.id) :
    (upsertOne store p).map VPoint.id = store.map VPoint.id := by
  unfold upsertOne
  rw [if_pos]
  · rw [List.map_map]
    refine List.map_congr_left (fun q _ => ?_)
    by_cases hq : q.id = p.id <;> simp [Function.comp, hq]
  · rcases List.mem_map.1 h with ⟨q, hq, hid⟩
    exact List.any_eq_true.2 ⟨q, hq, decide_eq_true hid⟩

/-- Upserting preserves distinctness of the stored ids. -/
lemma nodup_ids_upsertOne (store : List VPoint) (p : VPoint)
    (h : (store.map VPoint.id).Nodup) :
    ((upsertOne store p).map VPoint.id).Nodup := by
  unfold upsertOne
  split
  · next hm =>
    rcases List.any_eq_true.1 hm with ⟨q, hq, hid⟩
    have : p.id ∈ store.map VPoint.id :=
      List.mem_map.2 ⟨q, hq, (of_decide_eq_true hid)⟩
    rw [show ((store.map (fun q => if q.id = p.id then p else q)).map VPoint.id)
        = store.map VPoint.id from ?_]
    · exact h
    · rw [List.map_map]
      refine List.map_congr_left (fun r _ => ?_)
      by_cases hr : r.id = p.id <;> simp [hr]
  · next hm =>
    have hp : p.id ∉ store.map VPoint.id := by
      intro hc
      rcases List.mem_map.1 hc with ⟨q, hq, hid⟩
      exact hm (List.any_eq_true.2 ⟨q, hq, decide_eq_true hid⟩)
    simp only [List.map_append, List.map_cons, List.map_nil]
    exact List.nodup_append.2 ⟨h, List.nodup_singleton _, by
      simp only [List.disjoint_singleton]
      exact hp⟩

/-- A batch upsert never removes an id from the store. -/
lemma mem_ids_upsertPoints (pts : List VPoint) :
    ∀ (store : List VPoint) (x : String), x ∈ store.map VPoint.id →
      x ∈ (upsertPoints store pts).map VPoint.id := by
  induction pts with
  | nil => intro store x hx; exact hx
  | cons p rest ih =>
    intro store x hx
    exact ih (upsertOne store p) x (mem_ids_upsertOne store p x hx)

/-- Every upserted point's id is in the store afterwards. -/
lemma ids_subset_upsertPoints (pts : List VPoint) :
    ∀ (store : List VPoint) (p : VPoint), p ∈ pts →
      p.id ∈ (upsertPoints store pts).map VPoint.id := by
  induction pts with
  | nil => intro _ _ h; cases h
  | cons q rest ih =>
    intro store p hp
    rcases List.mem_cons.1 hp with rfl | hp
    · exact mem_ids_upsertPoints rest (upsertOne store p) p.id
        (id_mem_upsertOne store p)
    · exact ih (upsertOne store q) p hp

/-- A batch upsert preserves distinctness of the stored ids. -/
lemma nodup_ids_upsertPoints (pts : List VPoint) :
    ∀ (store : List VPoint), (store.map VPoint.id).Nodup →
      ((upsertPoints store pts).map VPoint.id).Nodup := by
  induction pts with
  | nil => intro store h; exact h
  | cons p rest ih =>
    intro store h
    exact ih (upsertOne store p) (nodup_ids_upsertOne store p h)

/-- Upserting points whose ids are all already present leaves the id list
unchanged: re-upserting overwrites rather than duplicates. -/
lemma ids_upsertPoints_of_subset (pts : List VPoint) :
    ∀ (store : List VPoint), (∀ p ∈ pts, p.id ∈ store.map VPoint.id) →
      (upsertPoints store pts).map VPoint.id = store.map VPoint.id := by
  induction pts with
  | nil => intro store _; rfl
  | cons p rest ih =>
    intro store h
    have h1 : (upsertOne store p).map VPoint.id = store.map VPoint.id :=
      ids_upsertOne_of_mem store p (h p (List.mem_cons_self p rest))
    have h2 : ∀ q ∈ rest, q.id ∈ (upsertOne store p).map VPoint.id := by
      intro q hq
      rw [h1]
      exact h q (List.mem_cons_of_mem p hq)
    calc (upsertPoints (upsertOne store p) rest).map VPoint.id
        = (upsertOne store p).map VPoint.id := ih (upsertOne store p) h2
      _ = store.map VPoint.id := h1

/-- The ids of the points zipped together by a successful upsert call. -/
lemma map_id_zip_points (ids : List String) (vectors : List (List ℚ))
    (payloads : List Payload) (h1 : ids.length = vectors.length)
    (h2 : vectors.length = payloads.length) :
    ((ids.zip (vectors.zip payloads)).map
      (fun x => VPoint.mk x.1 x.2.1 x.2.2)).map VPoint.id = ids := by
  have hlen : ids.length ≤ (vectors.zip payloads).length := by
    rw [List.length_zip]; omega
  rw [List.map_map]
  have : (VPoint.id ∘ fun x : String × (List ℚ × Payload) =>
      VPoint.mk x.1 x.2.1 x.2.2) = Prod.fst := by
    funext x; rfl
  rw [this, List.map_fst_zip _ _ hlen]

/-- A successful upsert call: equal lengths produce exactly the zipped
points, upserted in order, and echo the ids back (helper shared by the
claim theorems). -/
lemma upsert_vectors_ok (uuidGen : Nat → String) (store : List VPoint)
    (vectors : List (List ℚ)) (payloads : List Payload) (ids : List String)
    (h1 : ids.length = vectors.length) (h2 : vectors.length = payloads.length) :
    upsert_vectors uuidGen store vectors payloads (some ids) =
      .ok (upsertPoints store
        ((ids.zip (vectors.zip payloads)).map (fun x => VPoint.mk x.1 x.2.1 x.2.2)), ids) := by
  unfold upsert_vectors
  rw [if_neg (by omega)]
  simp only
  rw [if_neg (by omega)]

/-! ## Claim theorems -/

/-- Claim C6: for every call to vector upsert with caller-supplied ids, the
ids, vectors, and payloads sequences must all have equal length — otherwise
the call fails with the shape-mismatch `VectorStoreException` before any
point is written to the store (the error is raised by the length checks that
precede the store write, so the store contents are untouched); with equal
lengths, the call succeeds and writes exactly the zipped points. -/
theorem C6_upsert_shape_mismatch (uuidGen : Nat → String) (store : List VPoint)
    (vectors : List (List ℚ)) (payloads : List Payload) (ids : List String) :
    (¬ (ids.length = vectors.length ∧ vectors.length = payloads.length) →
      ∃ msg, upsert_vectors uuidGen store vectors payloads (some ids) = .error msg) ∧
    (ids.length = vectors.length → vectors.length = payloads.length →
      upsert_vectors uuidGen store vectors payloads (some ids) =
        .ok (upsertPoints store
          ((ids.zip (vectors.zip payloads)).map (fun x => VPoint.mk x.1 x.2.1 x.2.2)),
          ids)) := by
  constructor
  · intro h
    unfold upsert_vectors
    by_cases hvp : vectors.length = payloads.length
    · refine ⟨"IDs, vectors, and payloads must have same length", ?_⟩
      rw [if_neg (by omega)]
      simp only
      rw [if_pos (by omega)]
    · exact ⟨"Vectors and payloads must have same length", by rw [if_pos (by omega)]⟩
  · intro h1 h2
    exact upsert_vectors_ok uuidGen store vectors payloads ids h1 h2

/-- Witness for C6 at a concrete shape mismatch (one id, two vectors) and a
concrete matching call. -/
theorem C6_witness :
    (∃ msg, upsert_vectors (fun _ => "u") [] [[(1 : ℚ)], [2]] [[], []] (some ["a"]) =
      .error msg) ∧
    upsert_vectors (fun _ => "u") [] [[(1 : ℚ)]] [[]] (some ["a"]) =
      .ok ([VPoint.mk "a" [(1 : ℚ)] []], ["a"]) := by
  have h1 := (C6_upsert_shape_mismatch (fun _ => "u") [] [[(1 : ℚ)], [2]] [[], []] ["a"]).1
    (by decide)
  have h2 := (C6_upsert_shape_mismatch (fun _ => "u") [] [[(1 : ℚ)]] [[]] ["a"]).2
    (by decide) (by decide)
  exact ⟨h1, by rw [h2]; rfl⟩

/-- Claim C7: a cache-store outage (no connection) or backend error degrades
to cache-miss behaviour — `get` returns no value and `set` reports failure —
and by construction (`Option`/`Bool` return types of the embedded
functions, whose `try` bodies cover every backend interaction) neither call
raises to the caller. -/
theorem C7_cache_errors_degrade (r : RedisConn) (decode : String → ROut String)
    (key : String) (enc : ROut String) (ttl : Option Nat) :
    (∀ e, r.rget key = .err e → cacheGet (some r) decode key = none) ∧
    cacheGet none decode key = none ∧
    (∀ s e, enc = .ok s → r.rsetex key (effectiveTtl ttl) s = .err e →
      cacheSet (some r) enc key ttl = false) ∧
    cacheSet none enc key ttl = false := by
  refine ⟨fun e he => ?_, rfl, fun s e hs hx => ?_, rfl⟩
  · simp [cacheGet, he]
  · simp [cacheSet, hs, hx]

/-- Witness for C7 with a concrete backend whose operations all raise. -/
theorem C7_witness :
    cacheGet (some (RedisConn.mk (fun _ => .err "redis down")
        (fun _ _ _ => .err "redis down"))) (fun s => .ok s) "query:abc" = none ∧
    cacheSet (some (RedisConn.mk (fun _ => .err "redis down")
        (fun _ _ _ => .err "redis down"))) (.ok "v") "query:abc" (some 60) = false := by
  have h := C7_cache_errors_degrade
    (RedisConn.mk (fun _ => .err "redis down") (fun _ _ _ => .err "redis down"))
    (fun s => .ok s) "query:abc" (.ok "v") (some 60)
  exact ⟨h.1 "redis down" rfl, h.2.2.1 "v" "redis down" rfl rfl⟩

/-- Claim C9: `delete_vectors` with neither ids nor filter conditions (both
Python-falsy) fails with a `VectorStoreException` before contacting the
store; with a truthy id list it reports the id-list length as the deleted
count; with a falsy id list and a truthy filter it reports 0 for every
store, regardless of how many points the filter matched. -/
theorem C9_delete_vectors_contract (store : List VPoint)
    (vector_ids : Option (List String)) (filter_conditions : Option VFilter) :
    (truthyList vector_ids = false → truthyList filter_conditions = false →
      delete_vectors store vector_ids filter_conditions =
        .error "Must provide either vector_ids or filter_conditions") ∧
    (∀ l, vector_ids = some l → l ≠ [] →
      ∃ store2, delete_vectors store vector_ids filter_conditions =
        .ok (store2, l.length)) ∧
    (truthyList vector_ids = false → truthyList filter_conditions = true →
      ∃ store2, delete_vectors store vector_ids filter_conditions =
        .ok (store2, 0)) := by
  refine ⟨fun h1 h2 => ?_, fun l hl hne => ?_, fun h1 h2 => ?_⟩
  · unfold delete_vectors
    rw [if_pos ⟨h1, h2⟩]
  · have ht : truthyList vector_ids = true := by
      subst hl
      cases l with
      | nil => exact absurd rfl hne
      | cons a l => rfl
    refine ⟨store.filter (fun p => decide (¬ p.id ∈ l)), ?_⟩
    unfold delete_vectors
    rw [if_neg (by simp [ht]), if_pos ht]
    subst hl
    rfl
  · refine ⟨store.filter
      (fun p => decide (¬ matchesFilter p.payload (filter_conditions.getD []) = true)), ?_⟩
    unfold delete_vectors
    rw [if_neg (by simp [h2]), if_neg (by simp [h1])]

/-- Witness for C9: the three behaviours at concrete inputs (a two-point
store where the filter matches one point yet the reported count is 0). -/
theorem C9_witness :
    delete_vectors ([] : List VPoint) none none =
      .error "Must provide either vector_ids or filter_conditions" ∧
    (∃ store2, delete_vectors [VPoint.mk "p" [1] []] (some ["p", "z"]) none =
      .ok (store2, 2)) ∧
    (∃ store2, delete_vectors
      [VPoint.mk "p" [1] [("document_id", PVal.str "d")],
       VPoint.mk "q" [2] [("document_id", PVal.str "e")]] none
      (some [("document_id", PVal.str "d")]) = .ok (store2, 0)) := by
  refine ⟨(C9_delete_vectors_contract [] none none).1 rfl rfl, ?_, ?_⟩
  · exact (C9_delete_vectors_contract [VPoint.mk "p" [1] []] (some ["p", "z"]) none).2.1
      ["p", "z"] rfl (by decide)
  · exact (C9_delete_vectors_contract
      [VPoint.mk "p" [1] [("document_id", PVal.str "d")],
       VPoint.mk "q" [2] [("document_id", PVal.str "e")]] none
      (some [("document_id", PVal.str "d")])).2.2 rfl rfl

/-! ## Embedding lemmas -/

/-- A successful single-embedding call consulted the provider on exactly
that text. -/
lemma generate_embedding_ok_calls (provider : String → Except String (List ℚ))
    (t : String) (emb : List ℚ) (c : List String)
    (h : generate_embedding provider t = (.ok emb, c)) : c = [t] := by
  unfold generate_embedding at h
  split at h
  · injection h with h1 h2
    exact absurd h1 (by simp)
  · split at h
    · injection h with h1 h2
      exact absurd h1 (by simp)
    · split at h
      · injection h with h1 h2
        exact absurd h1 (by simp)
      · injection h with h1 h2
        exact h2.symm

/-- The sequential loop on an appended list: a failure in the first part
aborts the whole run. -/
lemma embedSeq_append_error (provider : String → Except String (List ℚ))
    (l1 l2 : List String) (e : String) (c : List String)
    (h : embedSeq provider l1 = (.error e, c)) :
    embedSeq provider (l1 ++ l2) = (.error e, c) := by
  induction l1 generalizing e c with
  | nil =>
    unfold embedSeq at h
    injection h with h1 h2
    exact absurd h1 (by simp)
  | cons t ts ih =>
    rw [List.cons_append]
    unfold embedSeq at h ⊢
    rcases hg : generate_embedding provider t with ⟨res, cg⟩
    rw [hg] at h
    cases res with
    | error e1 => exact h
    | ok emb =>
      rcases hs : embedSeq provider ts with ⟨res2, cs2⟩
      rw [hs] at h
      cases res2 with
      | error e2 =>
        simp only at h
        injection h with h1 h2
        injection h1 with h1
        subst h1 h2
        rw [ih e2 cs2 hs]
      | ok embs =>
        simp only at h
        injection h with h1 h2
        exact absurd h1 (by simp)

/-- The sequential loop on an appended list: the first part succeeding and
the second failing aborts with the second part's error, keeping all calls
made. -/
lemma embedSeq_append_ok_error (provider : String → Except String (List ℚ))
    (l1 l2 : List String) (a : List (List ℚ)) (c cs : List String) (e : String)
    (h1 : embedSeq provider l1 = (.ok a, c)) (h2 : embedSeq provider l2 = (.error e, cs)) :
    embedSeq provider (l1 ++ l2) = (.error e, c ++ cs) := by
  induction l1 generalizing a c with
  | nil =>
    unfold embedSeq at h1
    injection h1 with ha hc
    injection ha with ha
    subst hc
    simpa using h2
  | cons t ts ih =>
    rw [List.cons_append]
    unfold embedSeq at h1 ⊢
    rcases hg : generate_embedding provider t with ⟨res, cg⟩
    rw [hg] at h1
    cases res with
    | error e1 =>
      injection h1 with hx _
      exact absurd hx (by simp)
    | ok emb =>
      rcases hs : embedSeq provider ts with ⟨res2, cs2⟩
      rw [hs] at h1
      cases res2 with
      | error e2 =>
        simp only at h1
        injection h1 with hx _
        exact absurd hx (by simp)
      | ok embs =>
        simp only at h1
        injection h1 with hx hc
        subst hc
        rw [ih embs cs2 hs]
        simp [List.append_assoc]

/-- The sequential loop on an appended list, both parts succeeding. -/
lemma embedSeq_append_ok (provider : String → Except String (List ℚ))
    (l1 l2 : List String) (a b : List (List ℚ)) (c cs : List String)
    (h1 : embedSeq provider l1 = (.ok a, c)) (h2 : embedSeq provider l2 = (.ok b, cs)) :
    embedSeq provider (l1 ++ l2) = (.ok (a ++ b), c ++ cs) := by
  induction l1 generalizing a c with
  | nil =>
    unfold embedSeq at h1
    injection h1 with ha hc
    injection ha with ha
    subst hc
    rw [← ha]
    simpa using h2
  | cons t ts ih =>
    rw [List.cons_append]
    unfold embedSeq at h1 ⊢
    rcases hg : generate_embedding provider t with ⟨res, cg⟩
    rw [hg] at h1
    cases res with
    | error e1 =>
      injection h1 with hx _
      exact absurd hx (by simp)
    | ok emb =>
      rcases hs : embedSeq provider ts with ⟨res2, cs2⟩
      rw [hs] at h1
      cases res2 with
      | error e2 =>
        simp only at h1
        injection h1 with hx _
        exact absurd hx (by simp)
      | ok embs =>
        simp only at h1
        injection h1 with hx hc
        injection hx with hx
        subst hc
        rw [ih embs cs2 hs]
        simp only
        rw [← hx]
        simp [List.append_assoc]

/-- A successful sequential run returns one embedding per input text, in
order, each being the successful single-call result on that text, and the
provider was consulted on exactly the input texts in order. -/
lemma embedSeq_ok_spec (provider : String → Except String (List ℚ)) :
    ∀ (ts : List String) (es : List (List ℚ)) (calls : List String),
      embedSeq provider ts = (.ok es, calls) →
      es.length = ts.length ∧ calls = ts ∧
      ∀ i (h : i < ts.length) (h2 : i < es.length),
        generate_embedding provider (ts.get ⟨i, h⟩) =
          (.ok (es.get ⟨i, h2⟩), [ts.get ⟨i, h⟩]) := by
  intro ts
  induction ts with
  | nil =>
    intro es calls h
    unfold embedSeq at h
    injection h with ha hc
    injection ha with ha
    subst hc
    refine ⟨by subst ha; rfl, rfl, ?_⟩
    intro i hi
    exact absurd hi (by simp)
  | cons t rest ih =>
    intro es calls h
    unfold embedSeq at h
    rcases hg : generate_embedding provider t with ⟨res, cg⟩
    rw [hg] at h
    cases res with
    | error e1 =>
      injection h with hx _
      exact absurd hx (by simp)
    | ok emb =>
      rcases hs : embedSeq provider rest with ⟨res2, cs2⟩
      rw [hs] at h
      cases res2 with
      | error e2 =>
        simp only at h
        injection h with hx _
        exact absurd hx (by simp)
      | ok embs =>
        simp only at h
        injection h with hx hc
        injection hx with hx
        subst hc
        rw [← hx]
        rcases ih embs cs2 hs with ⟨hlen, hcalls, hget⟩
        have hcg : cg = [t] := generate_embedding_ok_calls provider t emb cg hg
        refine ⟨by simp [hlen], by simp [hcg, hcalls], ?_⟩
        intro i hi hi2
        cases i with
        | zero => rw [hcg] at hg; simpa using hg
        | succ j =>
          have hj : j < rest.length := by simpa using hi
          have hj2 : j < embs.length := by simpa using hi2
          simpa using hget j hj hj2

/-- The effective batch size is always positive. -/
lemma effectiveBatchSize_pos (o : Option ℕ) : effectiveBatchSize o ≠ 0 := by
  rcases o with _ | (_ | n) <;> simp [effectiveBatchSize]

/-- With a positive batch size the chunked batch loop is exactly the
sequential loop over all the texts. -/
lemma batchLoop_eq_embedSeq (provider : String → Except String (List ℚ))
    (bs : ℕ) (hbs : bs ≠ 0) :
    ∀ texts : List String, batchLoop provider bs texts = embedSeq provider texts := by
  have H : ∀ (n : ℕ) (texts : List String), texts.length = n →
      batchLoop provider bs texts = embedSeq provider texts := by
    intro n
    induction n using Nat.strong_induction_on with
    | _ n ih =>
      intro texts hn
      cases texts with
      | nil => rw [batchLoop, embedSeq]
      | cons t ts =>
        rw [batchLoop, if_neg hbs]
        have hdrop : ((t :: ts).drop bs).length < n := by
          subst hn
          simp only [List.length_drop, List.length_cons]
          omega
        have hsplit : t :: ts = (t :: ts).take bs ++ (t :: ts).drop bs :=
          (List.take_append_drop bs (t :: ts)).symm
        rw [ih ((t :: ts).drop bs).length hdrop ((t :: ts).drop bs) rfl]
        rcases h1 : embedSeq provider ((t :: ts).take bs) with ⟨res1, c1⟩
        cases res1 with
        | error e =>
          simp only
          conv_rhs => rw [hsplit]
          rw [embedSeq_append_error provider _ _ e c1 h1]
        | ok a =>
          rcases h2 : embedSeq provider ((t :: ts).drop bs) with ⟨res2, c2⟩
          cases res2 with
          | error e =>
            simp only
            conv_rhs => rw [hsplit]
            rw [embedSeq_append_ok_error provider _ _ a c1 c2 e h1 h2]
          | ok b =>
            simp only
            conv_rhs => rw [hsplit]
            rw [embedSeq_append_ok provider _ _ a b c1 c2 h1 h2]
  exact fun texts => H texts.length texts rfl

/-- Claim C10: batch embedding of an empty text list returns an empty list
without error and without any provider call (the recorded provider-call
trace is empty), even though a single blank or whitespace-only text raises
an embedding exception (also before any provider call); and whenever the
batch call succeeds, it produced exactly one embedding per input text, in
the same order (the i-th embedding is the successful single-call result on
the i-th text). -/
theorem C10_batch_embedding_contract (provider : String → Except String (List ℚ))
    (batch_size : Option ℕ) :
    generate_embeddings_batch provider [] batch_size = (.ok [], []) ∧
    (∀ t, pyBlank t = true →
      generate_embedding provider t =
        (.error "Cannot generate embedding for empty text", [])) ∧
    (∀ (texts : List String) (es : List (List ℚ)) (calls : List String),
      generate_embeddings_batch provider texts batch_size = (.ok es, calls) →
      es.length = texts.length ∧ calls = texts ∧
      ∀ i (h : i < texts.length) (h2 : i < es.length),
        generate_embedding provider (texts.get ⟨i, h⟩) =
          (.ok (es.get ⟨i, h2⟩), [texts.get ⟨i, h⟩])) := by
  refine ⟨rfl, fun t ht => ?_, fun texts es calls h => ?_⟩
  · unfold generate_embedding
    rw [if_pos ht]
  · rcases texts with _ | ⟨t, ts⟩
    · unfold generate_embeddings_batch at h
      simp only [List.isEmpty_nil, if_pos] at h
      injection h with ha hc
      injection ha with ha
      subst hc ha
      exact ⟨rfl, rfl, fun i hi => absurd hi (by simp)⟩
    · unfold generate_embeddings_batch at h
      simp only [List.isEmpty_cons, if_neg] at h
      rw [batchLoop_eq_embedSeq provider _ (effectiveBatchSize_pos batch_size)] at h
      exact embedSeq_ok_spec provider (t :: ts) es calls h

/-- Witness for C10: a concrete blank text, and a concrete successful batch
of two texts whose output is one embedding per text. -/
theorem C10_witness :
    generate_embedding (fun _ => Except.ok [(1 : ℚ)]) " " =
      (.error "Cannot generate embedding for empty text", []) ∧
    ([[(1 : ℚ)], [1]].length = (["a", "b"] : List String).length) ∧
    generate_embeddings_batch (fun _ => Except.ok [(1 : ℚ)]) ["a", "b"] none =
      (.ok [[(1 : ℚ)], [1]], ["a", "b"]) := by
  have h := C10_batch_embedding_contract (fun _ => Except.ok [(1 : ℚ)]) none
  have heval : generate_embeddings_batch (fun _ => Except.ok [(1 : ℚ)]) ["a", "b"] none =
      (.ok [[(1 : ℚ)], [1]], ["a", "b"]) := by
    unfold generate_embeddings_batch
    rw [if_neg (by simp)]
    rw [batchLoop_eq_embedSeq _ _ (effectiveBatchSize_pos none)]
    simp [embedSeq, generate_embedding, pyBlank]
  exact ⟨h.2.1 " " (by decide), (h.2.2 ["a", "b"] [[1], [1]] ["a", "b"] heval).1, heval⟩

/-! ## Reranker lemmas -/

/-- The dedup-filter count computed by the code equals the set-intersection
cardinality of the spec. -/
lemma overlap_count_eq_inter_card (q d : List String) :
    ((q.dedup.filter (fun t => t ∈ d.dedup)).length : ℚ) =
      ((q.toFinset ∩ d.toFinset).card : ℚ) := by
  have hnd : (q.dedup.filter (fun t => t ∈ d.dedup)).Nodup :=
    List.Nodup.filter _ q.nodup_dedup
  have hset : q.toFinset ∩ d.toFinset = (q.dedup.filter (fun t => t ∈ d.dedup)).toFinset := by
    ext a
    simp [List.mem_toFinset, List.mem_filter, List.mem_dedup, Finset.mem_inter]
  rw [hset, List.card_toFinset, hnd.dedup]

/-- The number of distinct query terms equals the cardinality of the set of
query terms. -/
lemma dedup_length_eq_card (q : List String) :
    ((q.dedup.length : ℚ)) = (q.toFinset.card : ℚ) := by
  rw [List.card_toFinset]

/-! ## Claim C3 -/

/-- Claim C3: Stage B reranking computes per candidate the query-term
overlap ratio `|query terms ∩ document terms| / |query terms|` (0 when the
query has no terms) and a length-fit score (flat 1/2 under 50 words,
otherwise `min(words, 500)/500`, with a further 8/10 multiplier past 1000
words); every output record's final score is
`0.7·original + 0.2·overlap + 0.1·length-fit` for its own content and
original (fused/vector) score, the output is sorted descending by final
score and truncated to `top_k`, and each record descends from an input
record whose score it carries as `original_score`. -/
theorem C3_rerank_contract (query : String) (results : List SResult) (top_k : ℕ) :
    (rerank query results top_k (7/10) (2/10) (1/10)).length = min top_k results.length ∧
    List.Sorted (fun a b => b.final_score ≤ a.final_score)
      (rerank query results top_k (7/10) (2/10) (1/10)) ∧
    (∀ rr ∈ rerank query results top_k (7/10) (2/10) (1/10),
      rr.final_score = (7/10) * rr.original_score +
        (2/10) * calculate_query_overlap query rr.content +
        (1/10) * calculate_length_penalty rr.content ∧
      ∃ r ∈ results, rr.id = r.id ∧ rr.original_score = r.score ∧
        rr.content = payloadContent r.payload) ∧
    (∀ document : String, pyWords (pyLower query) = [] →
      calculate_query_overlap query document = 0) ∧
    (∀ document : String, pyWords (pyLower query) ≠ [] →
      calculate_query_overlap query document =
        (((pyWords (pyLower query)).toFinset ∩ (pyWords (pyLower document)).toFinset).card : ℚ) /
          ((pyWords (pyLower query)).toFinset.card : ℚ)) ∧
    (∀ document : String, (pyWords document).length < 50 →
      calculate_length_penalty document = 1/2) ∧
    (∀ document : String, 50 ≤ (pyWords document).length →
      calculate_length_penalty document =
        ((min (pyWords document).length 500 : ℕ) : ℚ) / 500 *
          (if 1000 < (pyWords document).length then 8/10 else 1)) := by
  have hsortedlen :
      (rerank query results top_k (7/10) (2/10) (1/10)).length = min top_k results.length := by
    unfold rerank
    split
    · next h => simp [List.isEmpty_iff.1 h]
    · rw [List.length_take, List.length_mergeSort, List.length_map]
  refine ⟨hsortedlen, ?_, ?_, ?_, ?_, ?_, ?_⟩
  · unfold rerank
    split
    · exact List.sorted_nil
    · have hp := @List.sorted_mergeSort RankedResult
        (fun a b => decide (b.final_score ≤ a.final_score))
        (fun a b c hab hbc => by
          simp only [decide_eq_true_eq] at *
          exact le_trans hbc hab)
        (fun a b => by
          simp only [Bool.or_eq_true, decide_eq_true_eq]
          exact le_total b.final_score a.final_score)
        (results.map (scoreResult query (7/10) (2/10) (1/10)))
      have hp2 := hp.sublist (List.take_sublist top_k _)
      exact hp2.imp (fun h => of_decide_eq_true h)
  · intro rr hrr
    unfold rerank at hrr
    split at hrr
    · cases hrr
    · have h1 : rr ∈ (results.map (scoreResult query (7/10) (2/10) (1/10))).mergeSort
          (fun a b => decide (b.final_score ≤ a.final_score)) :=
        (List.take_sublist _ _).mem hrr
      have h2 : rr ∈ results.map (scoreResult query (7/10) (2/10) (1/10)) :=
        (List.mergeSort_perm _ _).mem_iff.1 h1
      rcases List.mem_map.1 h2 with ⟨r, hr, rfl⟩
      exact ⟨rfl, r, hr, rfl, rfl, rfl⟩
  · intro document hq
    simp [calculate_query_overlap, hq]
  · intro document hq
    simp only [calculate_query_overlap]
    rw [if_neg (by simp [List.isEmpty_iff, List.dedup_eq_nil, hq])]
    rw [overlap_count_eq_inter_card, dedup_length_eq_card]
  · intro document hlen
    simp only [calculate_length_penalty]
    rw [if_pos hlen]
  · intro document hlen
    simp only [calculate_length_penalty]
    rw [if_neg (by omega)]
    have hle : ((min (pyWords document).length 500 : ℕ) : ℚ) / 500 ≤ 1 := by
      rw [div_le_one (by norm_num)]
      have : min (pyWords document).length 500 ≤ 500 := min_le_right _ _
      exact_mod_cast this
    split
    · next hgt =>
      have hm : ((min (pyWords document).length 500 : ℕ) : ℚ) / 500 * (8/10) ≤ 1 :=
        calc ((min (pyWords document).length 500 : ℕ) : ℚ) / 500 * (8/10)
            ≤ 1 * (8/10) := mul_le_mul_of_nonneg_right hle (by norm_num)
          _ ≤ 1 := by norm_num
      exact min_eq_left hm
    · next hgt =>
      rw [mul_one]
      exact min_eq_left hle

/-- Witness for C3 at a concrete query and one-element candidate list. -/
theorem C3_witness :
    (rerank "cat" [SResult.mk "x" 1 [("content", PVal.str "cat")]] 1
      (7/10) (2/10) (1/10)).length = min 1 1 ∧
    calculate_length_penalty "a b" = 1/2 := by
  have h := C3_rerank_contract "cat" [SResult.mk "x" 1 [("content", PVal.str "cat")]] 1
  exact ⟨h.1, h.2.2.2.2.2.1 "a b" (by decide)⟩

/-! ## Fusion lemmas -/

/-- `normalize_scores` as a single map. -/
lemma normalize_scores_eq (rs : List SResult) :
    normalize_scores rs = rs.map (fun r =>
      (r, if maxScore rs = 0 then none else some (r.score / maxScore rs))) := by
  cases rs with
  | nil => rfl
  | cons a l => by_cases h : maxScore (a :: l) = 0 <;> simp [normalize_scores, h]

/-- The effective (normalized-or-raw) score of a normalized pair is the
spec's normalized score. -/
lemma effScore_pair (rs : List SResult) (r : SResult) :
    effScore (r, if maxScore rs = 0 then none else some (r.score / maxScore rs)) =
      specNormalizedScore rs r := by
  by_cases h : maxScore rs = 0 <;> simp [effScore, specNormalizedScore, h]

/-- Dict membership in terms of the id list. -/
lemma dictMember_iff (acc : List SResult) (i : String) :
    dictMember acc i = true ↔ i ∈ resIds acc := by
  simp only [dictMember, List.any_eq_true, decide_eq_true_eq, resIds, List.mem_map]

/-- Dict non-membership in terms of the id list. -/
lemma dictMember_eq_false (acc : List SResult) (i : String) :
    dictMember acc i = false ↔ i ∉ resIds acc := by
  rw [← dictMember_iff]
  cases dictMember acc i <;> simp

/-- Score updates do not change the stored ids. -/
lemma resIds_dictAddScore (acc : List SResult) (i : String) (s : ℚ) :
    resIds (dictAddScore acc i s) = resIds acc := by
  unfold resIds dictAddScore
  rw [List.map_map]
  refine List.map_congr_left (fun c _ => ?_)
  by_cases h : c.id = i <;> simp [Function.comp, h]

/-- `dictAddScore` unfolded one step. -/
lemma dictAddScore_cons (a : SResult) (rest : List SResult) (i : String) (s : ℚ) :
    dictAddScore (a :: rest) i s =
      (if a.id = i then { a with score := a.score + s } else a) :: dictAddScore rest i s := rfl

/-- Looking up the updated id after a score update. -/
lemma find?_dictAddScore_self (acc : List SResult) (i : String) (s : ℚ) :
    (dictAddScore acc i s).find? (fun c => c.id = i) =
      (acc.find? (fun c => c.id = i)).map (fun e => { e with score := e.score + s }) := by
  induction acc with
  | nil => rfl
  | cons a rest ih =>
    rw [dictAddScore_cons]
    by_cases h : a.id = i
    · rw [if_pos h]
      rw [List.find?_cons_of_pos _ (by simp [h]), List.find?_cons_of_pos _ (by simp [h])]
      rfl
    · rw [if_neg h]
      rw [List.find?_cons_of_neg _ (by simp [h]), List.find?_cons_of_neg _ (by simp [h])]
      exact ih

/-- Looking up a different id after a score update. -/
lemma find?_dictAddScore_ne (acc : List SResult) (i j : String) (s : ℚ) (h : j ≠ i) :
    (dictAddScore acc i s).find? (fun c => c.id = j) = acc.find? (fun c => c.id = j) := by
  induction acc with
  | nil => rfl
  | cons a rest ih =>
    rw [dictAddScore_cons]
    by_cases ha : a.id = i
    · have haj : ¬ a.id = j := by rw [ha]; exact fun hc => h hc.symm
      rw [if_pos ha]
      rw [List.find?_cons_of_neg _ (by simp [haj]), List.find?_cons_of_neg _ (by simp [haj])]
      exact ih
    · rw [if_neg ha]
      by_cases hj : a.id = j
      · rw [List.find?_cons_of_pos _ (by simp [hj]), List.find?_cons_of_pos _ (by simp [hj])]
      · rw [List.find?_cons_of_neg _ (by simp [hj]), List.find?_cons_of_neg _ (by simp [hj])]
        exact ih

/-- Appending a record with a different id does not change a lookup. -/
lemma find?_append_ne (acc : List SResult) (e : SResult) (i : String)
    (h : e.id ≠ i) :
    (acc ++ [e]).find? (fun c => c.id = i) = acc.find? (fun c => c.id = i) := by
  induction acc with
  | nil => simp [List.find?, decide_eq_false h]
  | cons a rest ih =>
    by_cases ha : a.id = i
    · simp [List.find?_cons, ha]
    · simp only [List.cons_append, List.find?_cons, decide_eq_false ha]
      exact ih

/-- An absent id is not found. -/
lemma find?_eq_none_of_not_mem (acc : List SResult) (i : String)
    (h : i ∉ resIds acc) : acc.find? (fun c => c.id = i) = none := by
  rw [List.find?_eq_none]
  intro c hc
  simp only [decide_eq_true_eq]
  intro hci
  exact h (List.mem_map.2 ⟨c, hc, hci⟩)

/-- Appending a record with a fresh id makes the lookup find it. -/
lemma find?_append_hit (acc : List SResult) (e : SResult) (i : String)
    (hd : e.id = i) (h : i ∉ resIds acc) :
    (acc ++ [e]).find? (fun c => c.id = i) = some e := by
  induction acc with
  | nil => simp [List.find?, hd]
  | cons a rest ih =>
    have ha : ¬ a.id = i := fun hc => h (by simp [resIds, hc])
    simp only [List.cons_append, List.find?_cons, decide_eq_false ha]
    exact ih (fun hc => h (by simp only [resIds, List.map_cons, List.mem_cons]; right; exact hc))

/-- A found record witnesses dict membership. -/
lemma dictMember_of_find? (acc : List SResult) (i : String) (e : SResult)
    (h : acc.find? (fun c => c.id = i) = some e) : dictMember acc i = true := by
  have hm := List.mem_of_find?_eq_some h
  have hp := List.find?_some h
  simp only [decide_eq_true_eq] at hp
  exact List.any_eq_true.2 ⟨e, hm, by simp [hp]⟩

/-- Folding `dictSet` over records with globally fresh, distinct ids simply
appends them. -/
lemma foldl_dictSet_fresh :
    ∀ (l acc : List SResult), (resIds acc ++ resIds l).Nodup →
      l.foldl dictSet acc = acc ++ l := by
  intro l
  induction l with
  | nil => intro acc _; simp
  | cons e rest ih =>
    intro acc hnd
    have hmem : e.id ∉ resIds acc := by
      rcases List.nodup_append.1 hnd with ⟨_, _, hdisj⟩
      intro hc
      exact hdisj hc (by simp [resIds])
    have hstep : dictSet acc e = acc ++ [e] := by
      unfold dictSet
      rw [if_neg (fun hc => hmem ((dictMember_iff acc e.id).1 hc))]
    rw [List.foldl_cons, hstep, ih (acc ++ [e]) (by
      simp only [resIds, List.map_append, List.map_cons, List.map_nil] at hnd ⊢
      simpa [List.append_assoc] using hnd)]
    simp

/-- Lookup in a map whose function preserves ids, over a list with distinct
ids. -/
lemma find?_map_of_nodup (f : SResult → SResult) (hf : ∀ r, (f r).id = r.id) :
    ∀ (rs : List SResult), (resIds rs).Nodup → ∀ r ∈ rs,
      (rs.map f).find? (fun c => c.id = r.id) = some (f r) := by
  intro rs
  induction rs with
  | nil => intro _ r hr; cases hr
  | cons a rest ih =>
    intro hnd r hr
    rcases List.mem_cons.1 hr with rfl | hr
    · simp [List.find?_cons, hf]
    · have hne : ¬ (f a).id = r.id := by
        rw [hf]
        intro hc
        have : a.id ∈ resIds rest := hc ▸ List.mem_map.2 ⟨r, hr, rfl⟩
        exact (List.nodup_cons.1 (by simpa [resIds] using hnd)).1 this
      simp only [List.map_cons, List.find?_cons, decide_eq_false hne]
      exact ih (List.nodup_cons.1 (by simpa [resIds] using hnd)).2 r hr

/-- `bmStep` in the member case. -/
lemma bmStep_member (bw : ℚ) (acc : List SResult) (x : SResult × Option ℚ)
    (h : dictMember acc x.1.id = true) :
    bmStep bw acc x = dictAddScore acc x.1.id (bw * effScore x) := by
  unfold bmStep
  rw [if_pos h]

/-- `bmStep` in the new-id case. -/
lemma bmStep_new (bw : ℚ) (acc : List SResult) (x : SResult × Option ℚ)
    (h : dictMember acc x.1.id = false) :
    bmStep bw acc x = acc ++ [⟨x.1.id, bw * effScore x, x.1.payload⟩] := by
  unfold bmStep
  rw [if_neg (by simp [h])]

/-- The ids accumulated by the BM25 fold: the existing ids followed by the
new ids in order. -/
lemma bmFold_ids (bw : ℚ) :
    ∀ (l : List (SResult × Option ℚ)) (acc : List SResult),
      (l.map (fun x => x.1.id)).Nodup →
      resIds (l.foldl (bmStep bw) acc) =
        resIds acc ++ (l.map (fun x => x.1.id)).filter (fun i => decide (i ∉ resIds acc)) := by
  intro l
  induction l with
  | nil => intro acc _; simp
  | cons x rest ih =>
    intro acc hnd
    have hnd' := hnd
    rw [List.map_cons] at hnd'
    rcases List.nodup_cons.1 hnd' with ⟨hx, hrest⟩
    rw [List.foldl_cons]
    by_cases hm : dictMember acc x.1.id = true
    · rw [bmStep_member bw acc x hm]
      rw [ih _ hrest, resIds_dictAddScore]
      have hxin : x.1.id ∈ resIds acc := (dictMember_iff acc x.1.id).1 hm
      simp [hxin]
    · have hm' : dictMember acc x.1.id = false := by
        cases hdm : dictMember acc x.1.id
        · rfl
        · exact absurd hdm hm
      rw [bmStep_new bw acc x hm']
      rw [ih _ hrest]
      have hxout : x.1.id ∉ resIds acc := (dictMember_eq_false acc x.1.id).1 hm'
      have hids : resIds (acc ++ [⟨x.1.id, bw * effScore x, x.1.payload⟩]) =
          resIds acc ++ [x.1.id] := by
        simp [resIds]
      rw [hids]
      have hfilter : (rest.map (fun y => y.1.id)).filter
            (fun i => decide (i ∉ resIds acc ++ [x.1.id])) =
          (rest.map (fun y => y.1.id)).filter (fun i => decide (i ∉ resIds acc)) := by
        refine List.filter_congr (fun i hi => ?_)
        have hne : i ≠ x.1.id := fun hc => hx (hc ▸ hi)
        simp [List.mem_append, hne]
      rw [hfilter]
      simp [hxout, List.append_assoc]

/-- The BM25 fold leaves lookups of ids absent from its input untouched. -/
lemma bmFold_find_untouched (bw : ℚ) :
    ∀ (l : List (SResult × Option ℚ)) (acc : List SResult) (i : String),
      (∀ x ∈ l, x.1.id ≠ i) →
      (l.foldl (bmStep bw) acc).find? (fun c => c.id = i) =
        acc.find? (fun c => c.id = i) := by
  intro l
  induction l with
  | nil => intro acc i _; rfl
  | cons x rest ih =>
    intro acc i hne
    have hxne : x.1.id ≠ i := hne x (List.mem_cons_self x rest)
    rw [List.foldl_cons]
    by_cases hm : dictMember acc x.1.id = true
    · rw [bmStep_member bw acc x hm]
      rw [ih _ i (fun y hy => hne y (List.mem_cons_of_mem x hy))]
      exact find?_dictAddScore_ne acc x.1.id i _ (fun hc => hxne hc.symm)
    · have hm' : dictMember acc x.1.id = false := by
        cases hdm : dictMember acc x.1.id
        · rfl
        · exact absurd hdm hm
      rw [bmStep_new bw acc x hm']
      rw [ih _ i (fun y hy => hne y (List.mem_cons_of_mem x hy))]
      exact find?_append_ne acc _ i hxne

/-- The BM25 fold adds the weighted normalized BM25 score to an id that the
accumulated dict already holds. -/
lemma bmFold_find_add (bw : ℚ) :
    ∀ (l : List (SResult × Option ℚ)) (acc : List SResult)
      (x : SResult × Option ℚ) (e : SResult),
      (l.map (fun y => y.1.id)).Nodup → x ∈ l →
      acc.find? (fun c => c.id = x.1.id) = some e →
      (l.foldl (bmStep bw) acc).find? (fun c => c.id = x.1.id) =
        some { e with score := e.score + bw * effScore x } := by
  intro l
  induction l with
  | nil => intro acc x e _ hx; cases hx
  | cons x0 rest ih =>
    intro acc x e hnd hx hfind
    have hnd' := hnd
    rw [List.map_cons] at hnd'
    rcases List.nodup_cons.1 hnd' with ⟨hx0, hrest⟩
    rw [List.foldl_cons]
    rcases List.mem_cons.1 hx with rfl | hx
    · have hm : dictMember acc x.1.id = true := dictMember_of_find? acc x.1.id e hfind
      rw [bmStep_member bw acc x hm]
      rw [bmFold_find_untouched bw rest _ x.1.id
        (fun y hy hc => hx0 (hc ▸ List.mem_map.2 ⟨y, hy, rfl⟩))]
      rw [find?_dictAddScore_self, hfind]
      rfl
    · have hxne : x.1.id ≠ x0.1.id := by
        intro hc
        exact hx0 (hc ▸ List.mem_map.2 ⟨x, hx, rfl⟩)
      by_cases hm : dictMember acc x0.1.id = true
      · rw [bmStep_member bw acc x0 hm]
        refine ih _ x e hrest hx ?_
        rw [find?_dictAddScore_ne acc x0.1.id x.1.id _ hxne]
        exact hfind
      · have hm' : dictMember acc x0.1.id = false := by
          cases hdm : dictMember acc x0.1.id
          · rfl
          · exact absurd hdm hm
        rw [bmStep_new bw acc x0 hm']
        refine ih _ x e hrest hx ?_
        rw [find?_append_ne acc ⟨x0.1.id, bw * effScore x0, x0.1.payload⟩ x.1.id
          (fun hc => hxne hc.symm)]
        exact hfind

/-- The BM25 fold appends a fresh id with only the weighted normalized BM25
score. -/
lemma bmFold_find_new (bw : ℚ) :
    ∀ (l : List (SResult × Option ℚ)) (acc : List SResult) (x : SResult × Option ℚ),
      (l.map (fun y => y.1.id)).Nodup → x ∈ l → x.1.id ∉ resIds acc →
      (l.foldl (bmStep bw) acc).find? (fun c => c.id = x.1.id) =
        some ⟨x.1.id, bw * effScore x, x.1.payload⟩ := by
  intro l
  induction l with
  | nil => intro acc x _ hx; cases hx
  | cons x0 rest ih =>
    intro acc x hnd hx hout
    have hnd' := hnd
    rw [List.map_cons] at hnd'
    rcases List.nodup_cons.1 hnd' with ⟨hx0, hrest⟩
    rw [List.foldl_cons]
    rcases List.mem_cons.1 hx with rfl | hx
    · have hm : dictMember acc x.1.id = false := (dictMember_eq_false acc x.1.id).2 hout
      rw [bmStep_new bw acc x hm]
      rw [bmFold_find_untouched bw rest _ x.1.id
        (fun y hy hc => hx0 (hc ▸ List.mem_map.2 ⟨y, hy, rfl⟩))]
      exact find?_append_hit acc _ x.1.id rfl hout
    · have hxne : x.1.id ≠ x0.1.id := by
        intro hc
        exact hx0 (hc ▸ List.mem_map.2 ⟨x, hx, rfl⟩)
      by_cases hm : dictMember acc x0.1.id = true
      · rw [bmStep_member bw acc x0 hm]
        refine ih _ x hrest hx ?_
        rw [resIds_dictAddScore]
        exact hout
      · have hm' : dictMember acc x0.1.id = false := by
          cases hdm : dictMember acc x0.1.id
          · rfl
          · exact absurd hdm hm
        rw [bmStep_new bw acc x0 hm']
        refine ih _ x hrest hx ?_
        simp only [resIds, List.map_append, List.map_cons, List.map_nil, List.mem_append,
          List.mem_cons, List.not_mem_nil]
        rintro (hc | hc | hc)
        · exact hout (by simpa [resIds] using hc)
        · exact hxne hc
        · cases hc

/-- Folding the weighted-vector-entry `dictSet` step over normalized pairs
with distinct fresh ids appends the corresponding entries. -/
lemma foldl_dictSet_pairs (vw : ℚ) :
    ∀ (l : List (SResult × Option ℚ)) (acc : List SResult),
      (resIds acc ++ l.map (fun x => x.1.id)).Nodup →
      l.foldl (fun acc x => dictSet acc ⟨x.1.id, vw * effScore x, x.1.payload⟩) acc =
        acc ++ l.map (fun x => ⟨x.1.id, vw * effScore x, x.1.payload⟩) := by
  intro l
  induction l with
  | nil => intro acc _; simp
  | cons x rest ih =>
    intro acc hnd
    have hmem : x.1.id ∉ resIds acc := by
      rcases List.nodup_append.1 hnd with ⟨_, _, hdisj⟩
      intro hc
      exact hdisj hc (by simp)
    rw [List.foldl_cons]
    have hstep : dictSet acc ⟨x.1.id, vw * effScore x, x.1.payload⟩ = acc ++
        [⟨x.1.id, vw * effScore x, x.1.payload⟩] := by
      unfold dictSet
      rw [if_neg (fun hc => hmem ((dictMember_iff acc _).1 hc))]
    rw [hstep]
    have hih := ih
      (acc ++ [{ id := x.1.id, score := vw * effScore x, payload := x.1.payload }])
      (by
        simp only [resIds, List.map_append, List.map_cons, List.map_nil] at hnd ⊢
        simpa [List.append_assoc] using hnd)
    rw [hih]
    simp

/-- The first (vector) loop of `_combine_results` builds the weighted
normalized vector entries, in order. -/
lemma combine_first_fold (vw : ℚ) (vres : List SResult)
    (hv : (resIds vres).Nodup) :
    (normalize_scores vres).foldl
        (fun acc x => dictSet acc ⟨x.1.id, vw * effScore x, x.1.payload⟩) [] =
      vres.map (fun r => ⟨r.id, vw * specNormalizedScore vres r, r.payload⟩) := by
  have hids : (normalize_scores vres).map (fun x => x.1.id) = resIds vres := by
    rw [normalize_scores_eq, List.map_map]
    rfl
  have h := foldl_dictSet_pairs vw (normalize_scores vres) [] (by
    rw [hids]
    simpa using hv)
  rw [h]
  rw [normalize_scores_eq, List.map_map]
  simp only [List.nil_append]
  refine List.map_congr_left (fun r _ => ?_)
  simp only [Function.comp]
  rw [effScore_pair]

/-- The ids of the normalized BM25 pairs are the BM25 result ids. -/
lemma normalized_ids (rs : List SResult) :
    (normalize_scores rs).map (fun x => x.1.id) = resIds rs := by
  rw [normalize_scores_eq, List.map_map]
  rfl

/-- The ids of the combined-entry list are the vector result ids. -/
lemma resIds_map_entry (vw : ℚ) (vres : List SResult) :
    resIds (vres.map (fun r => ⟨r.id, vw * specNormalizedScore vres r, r.payload⟩)) =
      resIds vres := by
  unfold resIds
  rw [List.map_map]
  rfl

/-! ## Claim C2 -/

/-- Claim C2: Stage A fusion normalizes each candidate list by its maximum
score (skipping a list whose maximum is 0 — `specNormalizedScore`), unions
the two lists by id (vector candidates first, then the BM25-only
candidates, in order), and scores an id present in both lists as
`vector_weight·norm_vector + bm25_weight·norm_bm25`, an id present in only
one list receiving only that list's weighted term (defaults 0.7/0.3
instantiated in the witness). -/
theorem C2_fusion_contract (vres bres : List SResult) (vw bw : ℚ)
    (hv : (resIds vres).Nodup) (hb : (resIds bres).Nodup) :
    resIds (combine_results vres bres vw bw) =
      resIds vres ++ (resIds bres).filter (fun i => decide (i ∉ resIds vres)) ∧
    (∀ r ∈ vres, ∀ s ∈ bres, r.id = s.id →
      (combine_results vres bres vw bw).find? (fun c => c.id = r.id) =
        some ⟨r.id, vw * specNormalizedScore vres r + bw * specNormalizedScore bres s,
          r.payload⟩) ∧
    (∀ r ∈ vres, r.id ∉ resIds bres →
      (combine_results vres bres vw bw).find? (fun c => c.id = r.id) =
        some ⟨r.id, vw * specNormalizedScore vres r, r.payload⟩) ∧
    (∀ s ∈ bres, s.id ∉ resIds vres →
      (combine_results vres bres vw bw).find? (fun c => c.id = s.id) =
        some ⟨s.id, bw * specNormalizedScore bres s, s.payload⟩) := by
  have hcomb : combine_results vres bres vw bw =
      (normalize_scores bres).foldl (bmStep bw)
        (vres.map (fun r => ⟨r.id, vw * specNormalizedScore vres r, r.payload⟩)) := by
    show List.foldl (bmStep bw)
        ((normalize_scores vres).foldl
          (fun acc x => dictSet acc ⟨x.1.id, vw * effScore x, x.1.payload⟩) [])
        (normalize_scores bres) = _
    rw [combine_first_fold vw vres hv]
  have hbn : ((normalize_scores bres).map (fun x => x.1.id)).Nodup := by
    rw [normalized_ids]; exact hb
  refine ⟨?_, ?_, ?_, ?_⟩
  · rw [hcomb, bmFold_ids bw _ _ hbn, resIds_map_entry, normalized_ids]
  · intro r hr s hs hrs
    have hx : (s, if maxScore bres = 0 then none
        else some (s.score / maxScore bres)) ∈ normalize_scores bres := by
      rw [normalize_scores_eq]
      exact List.mem_map.2 ⟨s, hs, rfl⟩
    have hfind : (vres.map (fun r =>
        (⟨r.id, vw * specNormalizedScore vres r, r.payload⟩ : SResult))).find?
          (fun c => c.id = r.id) =
        some ⟨r.id, vw * specNormalizedScore vres r, r.payload⟩ :=
      find?_map_of_nodup
        (fun r => (⟨r.id, vw * specNormalizedScore vres r, r.payload⟩ : SResult))
        (fun _ => rfl) vres hv r hr
    rw [hcomb]
    have h := bmFold_find_add bw (normalize_scores bres) _
      (s, if maxScore bres = 0 then none else some (s.score / maxScore bres))
      ⟨r.id, vw * specNormalizedScore vres r, r.payload⟩ hbn hx (by
        simp only
        rw [← hrs] at *
        exact hfind)
    simp only at h
    rw [← hrs] at h
    rw [h, effScore_pair]
  · intro r hr hout
    rw [hcomb]
    rw [bmFold_find_untouched bw _ _ r.id (by
      intro x hx hc
      apply hout
      rw [← hc]
      have : x.1.id ∈ (normalize_scores bres).map (fun x => x.1.id) :=
        List.mem_map.2 ⟨x, hx, rfl⟩
      rwa [normalized_ids] at this)]
    exact find?_map_of_nodup
      (fun r => (⟨r.id, vw * specNormalizedScore vres r, r.payload⟩ : SResult))
      (fun _ => rfl) vres hv r hr
  · intro s hs hout
    rw [hcomb]
    have hx : (s, if maxScore bres = 0 then none
        else some (s.score / maxScore bres)) ∈ normalize_scores bres := by
      rw [normalize_scores_eq]
      exact List.mem_map.2 ⟨s, hs, rfl⟩
    have h := bmFold_find_new bw (normalize_scores bres)
      (vres.map (fun r => (⟨r.id, vw * specNormalizedScore vres r, r.payload⟩ : SResult)))
      (s, if maxScore bres = 0 then none else some (s.score / maxScore bres)) hbn hx (by
        rw [resIds_map_entry]
        exact hout)
    simp only at h
    rw [h, effScore_pair]

/-- Witness for C2 at a concrete pair of candidate lists with the default
weights: "a" is vector-only, "b" is in both lists, "c" is BM25-only. -/
theorem C2_witness :
    resIds (combine_results
        [SResult.mk "a" 1 [], SResult.mk "b" (1/2) []]
        [SResult.mk "b" 4 [], SResult.mk "c" 2 []] (7/10) (3/10)) =
      ["a", "b"] ++ ["c"] ∧
    (combine_results
        [SResult.mk "a" 1 [], SResult.mk "b" (1/2) []]
        [SResult.mk "b" 4 [], SResult.mk "c" 2 []] (7/10) (3/10)).find?
      (fun c => c.id = "b") = some (SResult.mk "b" (13/20) []) := by
  have h := C2_fusion_contract
    [SResult.mk "a" 1 [], SResult.mk "b" (1/2) []]
    [SResult.mk "b" 4 [], SResult.mk "c" 2 []] (7/10) (3/10)
    (by decide) (by decide)
  constructor
  · rw [h.1]
    rfl
  · have hb := h.2.1 (SResult.mk "b" (1/2) []) (by simp) (SResult.mk "b" 4 []) (by simp) rfl
    rw [hb]
    norm_num [specNormalizedScore, maxScore]

/-! ## Claim C5 -/

/-- Adding zero to a stored score is a no-op. -/
lemma dictAddScore_zero (acc : List SResult) (i : String) :
    dictAddScore acc i 0 = acc := by
  unfold dictAddScore
  have : ∀ c : SResult, (if c.id = i then { c with score := c.score + 0 } else c) = c := by
    intro c
    by_cases h : c.id = i
    · rw [if_pos h]
      cases c
      simp
    · rw [if_neg h]
  calc acc.map (fun c => if c.id = i then { c with score := c.score + 0 } else c)
      = acc.map id := List.map_congr_left (fun c _ => this c)
    _ = acc := List.map_id acc

/-- With BM25 weight 0 the BM25 fold only appends zero-score entries for
fresh ids, leaving existing entries untouched. -/
lemma bmFold_zero :
    ∀ (l : List (SResult × Option ℚ)) (acc : List SResult),
      (l.map (fun x => x.1.id)).Nodup →
      ∃ extras, l.foldl (bmStep 0) acc = acc ++ extras ∧
        resIds extras = (l.map (fun x => x.1.id)).filter (fun i => decide (i ∉ resIds acc)) ∧
        ∀ c ∈ extras, c.score = 0 := by
  intro l
  induction l with
  | nil =>
    intro acc _
    exact ⟨[], by simp, by simp [resIds], fun c hc => absurd hc (List.not_mem_nil c)⟩
  | cons x rest ih =>
    intro acc hnd
    have hnd' := hnd
    rw [List.map_cons] at hnd'
    rcases List.nodup_cons.1 hnd' with ⟨hx, hrest⟩
    rw [List.foldl_cons]
    by_cases hm : dictMember acc x.1.id = true
    · rw [bmStep_member 0 acc x hm, zero_mul, dictAddScore_zero]
      rcases ih acc hrest with ⟨extras, heq, hids, hz⟩
      refine ⟨extras, heq, ?_, hz⟩
      rw [hids]
      have hxin : x.1.id ∈ resIds acc := (dictMember_iff acc x.1.id).1 hm
      simp [hxin]
    · have hm' : dictMember acc x.1.id = false := by
        cases hdm : dictMember acc x.1.id
        · rfl
        · exact absurd hdm hm
      have hxout : x.1.id ∉ resIds acc := (dictMember_eq_false acc x.1.id).1 hm'
      rw [bmStep_new 0 acc x hm', zero_mul]
      rcases ih (acc ++ [⟨x.1.id, 0, x.1.payload⟩]) hrest with ⟨extras, heq, hids, hz⟩
      refine ⟨⟨x.1.id, 0, x.1.payload⟩ :: extras, by rw [heq]; simp, ?_, ?_⟩
      · have hfilter : (rest.map (fun y => y.1.id)).filter
              (fun i => decide (i ∉ resIds (acc ++ [⟨x.1.id, 0, x.1.payload⟩]))) =
            (rest.map (fun y => y.1.id)).filter (fun i => decide (i ∉ resIds acc)) := by
          refine List.filter_congr (fun i hi => ?_)
          have hne : i ≠ x.1.id := fun hc => hx (hc ▸ hi)
          simp [resIds, hne]
        rw [show resIds (⟨x.1.id, 0, x.1.payload⟩ :: extras) =
            x.1.id :: resIds extras from rfl]
        rw [hids, hfilter]
        simp [hxout]
      · intro c hc
        rcases List.mem_cons.1 hc with rfl | hc
        · rfl
        · exact hz c hc

/-- Counterexample to claim C5 as stated: with lexical weight 0 and a BM25
candidate "b" absent from the vector list, the fused candidate list is
["a", "b"], not the pure-vector candidate list ["a"] — the BM25-only
candidate survives with fused score 0 instead of being dropped. -/
theorem C5_counterexample :
    resIds (combine_results [SResult.mk "a" 1 []] [SResult.mk "b" 5 []] (7/10) 0) =
      ["a", "b"] ∧
    resIds [SResult.mk "a" (1 : ℚ) []] = ["a"] ∧
    (["a", "b"] : List String) ≠ ["a"] ∧
    (combine_results [SResult.mk "a" 1 []] [SResult.mk "b" 5 []] (7/10) 0).find?
      (fun c => c.id = "b") = some (SResult.mk "b" 0 []) := by
  have h1 : combine_results [SResult.mk "a" 1 []] [SResult.mk "b" 5 []] (7/10) 0 =
      [SResult.mk "a" (7/10) [], SResult.mk "b" 0 []] := by
    norm_num [combine_results, normalize_scores, maxScore, bmStep, dictMember,
      dictAddScore, dictSet, effScore]
    decide
  rw [h1]
  refine ⟨rfl, rfl, by decide, rfl⟩

/-- Claim C5 amended: setting the BM25 weight to 0 keeps the vector
candidates first, in their original order, each with fused score
`vector_weight · normalized vector score`; candidates found only by BM25
are appended after them, in order, each with fused score 0 (rather than
being absent, as the original claim stated). -/
theorem C5_amended_lexical_zero (vres bres : List SResult) (vw : ℚ)
    (hv : (resIds vres).Nodup) (hb : (resIds bres).Nodup) :
    ∃ extras,
      combine_results vres bres vw 0 =
        vres.map (fun r => ⟨r.id, vw * specNormalizedScore vres r, r.payload⟩) ++ extras ∧
      resIds extras = (resIds bres).filter (fun i => decide (i ∉ resIds vres)) ∧
      ∀ c ∈ extras, c.score = 0 := by
  have hcomb : combine_results vres bres vw 0 =
      (normalize_scores bres).foldl (bmStep 0)
        (vres.map (fun r => ⟨r.id, vw * specNormalizedScore vres r, r.payload⟩)) := by
    show List.foldl (bmStep 0)
        ((normalize_scores vres).foldl
          (fun acc x => dictSet acc ⟨x.1.id, vw * effScore x, x.1.payload⟩) [])
        (normalize_scores bres) = _
    rw [combine_first_fold vw vres hv]
  have hbn : ((normalize_scores bres).map (fun x => x.1.id)).Nodup := by
    rw [normalized_ids]; exact hb
  rcases bmFold_zero (normalize_scores bres)
    (vres.map (fun r => ⟨r.id, vw * specNormalizedScore vres r, r.payload⟩)) hbn
    with ⟨extras, heq, hids, hz⟩
  refine ⟨extras, by rw [hcomb, heq], ?_, hz⟩
  rw [hids, normalized_ids, resIds_map_entry]

/-- Witness for the amended C5 at a concrete input (the counterexample's
input, which satisfies the distinct-ids hypotheses). -/
theorem C5_witness :
    ∃ extras,
      combine_results [SResult.mk "a" 1 []] [SResult.mk "b" 5 []] (7/10) 0 =
        ([SResult.mk "a" 1 []].map (fun r =>
          ⟨r.id, (7/10) * specNormalizedScore [SResult.mk "a" 1 []] r, r.payload⟩)) ++ extras ∧
      resIds extras =
        (resIds [SResult.mk "b" 5 []]).filter
          (fun i => decide (i ∉ resIds [SResult.mk "a" 1 []])) ∧
      ∀ c ∈ extras, c.score = 0 :=
  C5_amended_lexical_zero [SResult.mk "a" 1 []] [SResult.mk "b" 5 []] (7/10)
    (by decide) (by decide)

/-! ## Chunker lemmas -/

/-- A non-blank page yields one chunk per splitter piece. -/
lemma chunk_text_length (split : String → List String) (text : String)
    (page : Option ℕ) (hb : pyBlank text = false) :
    (chunk_text split text page).length = (split text).length := by
  simp [chunk_text, hb, List.enum_length]

/-- The `n`-th chunk of a non-blank text: the `n`-th splitter piece, indexed
`n`, tagged with the given page. -/
lemma chunk_text_get (split : String → List String) (text : String)
    (page : Option ℕ) (hb : pyBlank text = false) (n : ℕ)
    (hn : n < (chunk_text split text page).length) :
    ∃ hsn : n < (split text).length,
      (chunk_text split text page).get ⟨n, hn⟩ =
        ⟨(split text).get ⟨n, hsn⟩, n, (split text).length,
          ((split text).get ⟨n, hsn⟩).length, page, none⟩ := by
  have hsn : n < (split text).length := by
    rw [← chunk_text_length split text page hb]
    exact hn
  refine ⟨hsn, ?_⟩
  have heq : chunk_text split text page = (split text).enum.map
      (fun x => (⟨x.2, x.1, (split text).length, x.2.length, page, none⟩ : ChunkRec)) := by
    simp [chunk_text, hb]
  rw [List.get_eq_getElem, List.get_eq_getElem]
  simp only [heq, List.getElem_map, List.getElem_enum]

/-- One step of the page loop on a blank page. -/
lemma chunkPagesGo_blank (split : String → List String) (k : ℕ)
    (acc : List ChunkRec) (p : String) (ps : List String)
    (hb : pyBlank p = true) :
    chunkPagesGo split k acc (p :: ps) = chunkPagesGo split (k + 1) acc ps := by
  rw [chunkPagesGo, if_pos hb]

/-- One step of the page loop on a non-blank page. -/
lemma chunkPagesGo_cons (split : String → List String) (k : ℕ)
    (acc : List ChunkRec) (p : String) (ps : List String)
    (hb : pyBlank p = false) :
    chunkPagesGo split k acc (p :: ps) = chunkPagesGo split (k + 1)
      (acc ++ (chunk_text split p (some k)).enum.map
        (fun x => { x.2 with global_chunk_index := some (acc.length + x.1) })) ps := by
  rw [chunkPagesGo, if_neg (by simp [hb])]

/-- Throughout the page loop, every accumulated chunk's
`global_chunk_index` is its position. -/
lemma chunkPagesGo_global (split : String → List String) :
    ∀ (rest : List String) (k : ℕ) (acc : List ChunkRec),
      (∀ i (h : i < acc.length), (acc.get ⟨i, h⟩).global_chunk_index = some i) →
      ∀ i (h : i < (chunkPagesGo split k acc rest).length),
        ((chunkPagesGo split k acc rest).get ⟨i, h⟩).global_chunk_index = some i := by
  intro rest
  induction rest with
  | nil => intro k acc hacc i h; exact hacc i h
  | cons p ps ih =>
    intro k acc hacc
    by_cases hb : pyBlank p = true
    · rw [chunkPagesGo_blank split k acc p ps hb]
      exact ih (k + 1) acc hacc
    · have hb' : pyBlank p = false := by
        cases hx : pyBlank p
        · rfl
        · exact absurd hx hb
      rw [chunkPagesGo_cons split k acc p ps hb']
      refine ih (k + 1) _ ?_
      intro j hj
      rw [List.get_eq_getElem]
      by_cases hja : j < acc.length
      · rw [List.getElem_append_left hja]
        have hj0 := hacc j hja
        rw [List.get_eq_getElem] at hj0
        exact hj0
      · have hja' : acc.length ≤ j := by omega
        rw [List.getElem_append_right hja', List.getElem_map, List.getElem_enum]
        simp only
        congr 1
        omega

/-- Throughout the page loop, every produced chunk either was already
accumulated or originates from a later non-blank page: it carries that
page's number, its `chunk_index` is its page-local position, and its
content is the corresponding splitter piece of that page. -/
lemma chunkPagesGo_mem (split : String → List String) :
    ∀ (rest : List String) (k : ℕ) (acc : List ChunkRec),
      ∀ c ∈ chunkPagesGo split k acc rest, c ∈ acc ∨
        ∃ j, ∃ hj : j < rest.length,
          c.page = some (k + j) ∧
          pyBlank (rest.get ⟨j, hj⟩) = false ∧
          ∃ hi : c.chunk_index < (split (rest.get ⟨j, hj⟩)).length,
            c.content = (split (rest.get ⟨j, hj⟩)).get ⟨c.chunk_index, hi⟩ := by
  intro rest
  induction rest with
  | nil => intro k acc c hc; exact Or.inl hc
  | cons p ps ih =>
    intro k acc c hc
    by_cases hb : pyBlank p = true
    · rw [chunkPagesGo_blank split k acc p ps hb] at hc
      rcases ih (k + 1) acc c hc with hin | ⟨j, hj, hpage, hblank, hi, hcontent⟩
      · exact Or.inl hin
      · refine Or.inr ⟨j + 1, by simpa using hj, ?_, hblank, hi, hcontent⟩
        rw [hpage]
        congr 1
        omega
    · have hb' : pyBlank p = false := by
        cases hx : pyBlank p
        · rfl
        · exact absurd hx hb
      rw [chunkPagesGo_cons split k acc p ps hb'] at hc
      rcases ih (k + 1) _ c hc with hin | ⟨j, hj, hpage, hblank, hi, hcontent⟩
      · rcases List.mem_append.1 hin with hin | hnew
        · exact Or.inl hin
        · rcases List.mem_iff_get.1 hnew with ⟨⟨n, hn⟩, hget⟩
          have hne : n < (chunk_text split p (some k)).length := by
            simpa [List.enum_length] using hn
          rw [List.get_eq_getElem, List.getElem_map, List.getElem_enum] at hget
          rcases chunk_text_get split p (some k) hb' n hne with ⟨hsn, hcn⟩
          rw [List.get_eq_getElem] at hcn
          rw [hcn] at hget
          refine Or.inr ⟨0, by simp, ?_, by simpa using hb', ?_⟩
          · rw [← hget]
            simp
          · rw [← hget]
            simp only
            exact ⟨hsn, rfl⟩
      · refine Or.inr ⟨j + 1, by simpa using hj, ?_, hblank, hi, hcontent⟩
        rw [hpage]
        congr 1
        omega

/-- Counterexample to claim C8 as stated: with a splitter yielding one
chunk per page and two one-character pages, the `chunk_index` carried by
the output chunks is `[0, 0]` (each page-local), not the global positions
`[0, 1]` — the global position lives in the separate `global_chunk_index`
field instead. -/
theorem C8_counterexample :
    (chunk_document_with_pages (fun t => [t]) ["a", "b"]).map ChunkRec.chunk_index =
      [0, 0] ∧
    ([0, 0] : List ℕ) ≠ [0, 1] ∧
    (chunk_document_with_pages (fun t => [t]) ["a", "b"]).map
      ChunkRec.global_chunk_index = [some 0, some 1] := by
  refine ⟨by decide, by decide, by decide⟩

/-- Claim C8 amended: the page-aware chunking variant tags each produced
chunk with its originating page number (pages numbered from 1, blank pages
skipped, each chunk's content being a splitter piece of its page and its
`chunk_index` field staying the page-local position of that piece), sets
every chunk's `total_chunks` to the global count, and records each chunk's
position in the global output sequence in the `global_chunk_index` field —
rather than in the `chunk_index` field, as the original claim stated. -/
theorem C8_amended_page_chunking (split : String → List String)
    (page_texts : List String) :
    (∀ i (h : i < (chunk_document_with_pages split page_texts).length),
      ((chunk_document_with_pages split page_texts).get ⟨i, h⟩).global_chunk_index =
        some i) ∧
    (∀ c ∈ chunk_document_with_pages split page_texts,
      c.total_chunks = (chunk_document_with_pages split page_texts).length) ∧
    (∀ c ∈ chunk_document_with_pages split page_texts,
      ∃ p, 1 ≤ p ∧ ∃ hp : p - 1 < page_texts.length,
        c.page = some p ∧
        pyBlank (page_texts.get ⟨p - 1, hp⟩) = false ∧
        ∃ hi : c.chunk_index < (split (page_texts.get ⟨p - 1, hp⟩)).length,
          c.content = (split (page_texts.get ⟨p - 1, hp⟩)).get ⟨c.chunk_index, hi⟩) := by
  have hlen : (chunk_document_with_pages split page_texts).length =
      (chunkPagesGo split 1 [] page_texts).length := by
    unfold chunk_document_with_pages
    simp
  refine ⟨?_, ?_, ?_⟩
  · intro i h
    unfold chunk_document_with_pages
    rw [List.get_eq_getElem, List.getElem_map]
    have hgi : i < (chunkPagesGo split 1 [] page_texts).length := by
      rw [← hlen]; exact h
    have := chunkPagesGo_global split page_texts 1 []
      (fun i hi => absurd hi (by simp)) i hgi
    rw [List.get_eq_getElem] at this
    exact this
  · intro c hc
    unfold chunk_document_with_pages at hc
    rcases List.mem_map.1 hc with ⟨c0, _, rfl⟩
    rw [hlen]
  · intro c hc
    unfold chunk_document_with_pages at hc
    rcases List.mem_map.1 hc with ⟨c0, hc0, rfl⟩
    rcases chunkPagesGo_mem split page_texts 1 [] c0 hc0 with hin | ⟨j, hj, hpage, hblank, hi, hcontent⟩
    · exact absurd hin (List.not_mem_nil c0)
    · refine ⟨j + 1, by omega, by simpa using hj, ?_, hblank, hi, hcontent⟩
      rw [hpage]
      congr 1
      omega

/-- Witness for the amended C8 at the counterexample's concrete input. -/
theorem C8_witness :
    ((chunk_document_with_pages (fun t => [t]) ["a", "b"]).get
      ⟨1, by decide⟩).global_chunk_index = some 1 ∧
    (∀ c ∈ chunk_document_with_pages (fun t => [t]) ["a", "b"],
      c.total_chunks = (chunk_document_with_pages (fun t => [t]) ["a", "b"]).length) := by
  have h := C8_amended_page_chunking (fun t => [t]) ["a", "b"]
  exact ⟨h.1 1 (by decide), h.2.1⟩

/-! ## Ingestion lemmas -/

/-- A successful batch produced one embedding per text. -/
lemma batch_ok_length (provider : String → Except String (List ℚ))
    (texts : List String) (bs : Option ℕ) (es : List (List ℚ)) (calls : List String)
    (h : generate_embeddings_batch provider texts bs = (.ok es, calls)) :
    es.length = texts.length := by
  cases texts with
  | nil =>
    unfold generate_embeddings_batch at h
    simp only [List.isEmpty_nil, if_pos] at h
    injection h with ha _
    injection ha with ha
    rw [← ha]
    rfl
  | cons t ts =>
    unfold generate_embeddings_batch at h
    simp only [List.isEmpty_cons, if_neg] at h
    rw [batchLoop_eq_embedSeq provider _ (effectiveBatchSize_pos bs)] at h
    exact (embedSeq_ok_spec provider (t :: ts) es calls h).1

/-- The prepared ingestion shapes all agree in length. -/
lemma ingest_lengths (docId filename : String) (chunks : List ChunkRec) :
    (ingestVectorIds docId chunks.length).length = chunks.length ∧
    (ingestPayloads docId filename chunks).length = chunks.length ∧
    (ingestRows docId chunks).length = chunks.length := by
  refine ⟨?_, ?_, ?_⟩
  · simp [ingestVectorIds]
  · simp [ingestPayloads, List.enum_length]
  · simp [ingestRows, List.enum_length]

/-- Ingestion after a parse failure. -/
lemma process_parse_error (env : IngestEnv) (docId filename : String) (w : World)
    (e : String) (h : env.parseResult = .error e) :
    process_document_background env docId filename w =
      ({ w with doc := failDoc { w.doc with status := "processing" } e }, .error e) := by
  unfold process_document_background
  rw [h]

/-- Ingestion after an embedding failure. -/
lemma process_embed_error (env : IngestEnv) (docId filename : String) (w : World)
    (text : String) (numPages : ℕ) (usedOcr : Bool) (e : String)
    (hp : env.parseResult = .ok (text, numPages, usedOcr))
    (hb : (generate_embeddings_batch env.provider
        ((chunk_text env.split text none).map ChunkRec.content) none).1 = .error e) :
    process_document_background env docId filename w =
      ({ w with doc := failDoc { w.doc with status := "processing" } e }, .error e) := by
  unfold process_document_background
  rw [hp]
  simp only
  rw [hb]

/-- The store contents written by a (shape-correct) ingestion upsert. -/
lemma ingest_upsert_ok (docId filename : String) (w : World)
    (text : String) (split : String → List String) (embeddings : List (List ℚ))
    (hlen : embeddings.length = (chunk_text split text none).length) :
    upsert_vectors (fun _ => "") w.vstore embeddings
        (ingestPayloads docId filename (chunk_text split text none))
        (some (ingestVectorIds docId (chunk_text split text none).length)) =
      .ok (upsertPoints w.vstore
        (((ingestVectorIds docId (chunk_text split text none).length).zip
          (embeddings.zip (ingestPayloads docId filename (chunk_text split text none)))).map
            (fun x => VPoint.mk x.1 x.2.1 x.2.2)),
        ingestVectorIds docId (chunk_text split text none).length) := by
  rcases ingest_lengths docId filename (chunk_text split text none) with ⟨h1, h2, _⟩
  exact upsert_vectors_ok (fun _ => "") w.vstore embeddings _ _
    (by rw [h1, hlen]) (by rw [h2, hlen])

/-- Ingestion after a final-commit failure: the document is failed but the
vectors stay written. -/
lemma process_commit_error (env : IngestEnv) (docId filename : String) (w : World)
    (text : String) (numPages : ℕ) (usedOcr : Bool) (embeddings : List (List ℚ))
    (calls : List String) (e : String)
    (hp : env.parseResult = .ok (text, numPages, usedOcr))
    (hb : generate_embeddings_batch env.provider
        ((chunk_text env.split text none).map ChunkRec.content) none = (.ok embeddings, calls))
    (hc : env.commitResult = .error e) :
    process_document_background env docId filename w =
      ({ w with
          doc := failDoc { w.doc with status := "processing" } e,
          vstore := upsertPoints w.vstore
            (((ingestVectorIds docId (chunk_text env.split text none).length).zip
              (embeddings.zip (ingestPayloads docId filename (chunk_text env.split text none)))).map
                (fun x => VPoint.mk x.1 x.2.1 x.2.2)) }, .error e) := by
  have hlen : embeddings.length = (chunk_text env.split text none).length := by
    have := batch_ok_length env.provider _ none embeddings calls hb
    simpa using this
  unfold process_document_background
  rw [hp]
  simp only
  rw [hb]
  simp only
  rw [ingest_upsert_ok docId filename w text env.split embeddings hlen]
  simp only
  rw [hc]

/-- A fully successful ingestion run. -/
lemma process_ok (env : IngestEnv) (docId filename : String) (w : World)
    (text : String) (numPages : ℕ) (usedOcr : Bool) (embeddings : List (List ℚ))
    (calls : List String)
    (hp : env.parseResult = .ok (text, numPages, usedOcr))
    (hb : generate_embeddings_batch env.provider
        ((chunk_text env.split text none).map ChunkRec.content) none = (.ok embeddings, calls))
    (hc : env.commitResult = .ok ()) :
    process_document_background env docId filename w =
      (World.mk
        { w.doc with
            status := "completed",
            total_chunks := (chunk_text env.split text none).length,
            total_pages := numPages, total_characters := text.length }
        (w.rows ++ ingestRows docId (chunk_text env.split text none))
        (upsertPoints w.vstore
          (((ingestVectorIds docId (chunk_text env.split text none).length).zip
            (embeddings.zip (ingestPayloads docId filename (chunk_text env.split text none)))).map
              (fun x => VPoint.mk x.1 x.2.1 x.2.2))), .ok ()) := by
  have hlen : embeddings.length = (chunk_text env.split text none).length := by
    have := batch_ok_length env.provider _ none embeddings calls hb
    simpa using this
  unfold process_document_background
  rw [hp]
  simp only
  rw [hb]
  simp only
  rw [ingest_upsert_ok docId filename w text env.split embeddings hlen]
  simp only
  rw [hc]

/-- The ids of the points upserted by ingestion are the deterministic
vector ids. -/
lemma ingest_pts_ids (docId filename : String) (split : String → List String)
    (text : String) (embeddings : List (List ℚ))
    (hlen : embeddings.length = (chunk_text split text none).length) :
    (((ingestVectorIds docId (chunk_text split text none).length).zip
      (embeddings.zip (ingestPayloads docId filename (chunk_text split text none)))).map
        (fun x => VPoint.mk x.1 x.2.1 x.2.2)).map VPoint.id =
      ingestVectorIds docId (chunk_text split text none).length := by
  rcases ingest_lengths docId filename (chunk_text split text none) with ⟨h1, h2, _⟩
  exact map_id_zip_points _ _ _ (by rw [h1, hlen]) (by rw [hlen, h2])

/-- Each deterministic vector id is among the prepared ids. -/
lemma mkVid_mem_ingestVectorIds (docId : String) (n i : ℕ) (h : i < n) :
    mkVid docId i ∈ ingestVectorIds docId n :=
  List.mem_map.2 ⟨i, List.mem_range.2 h, rfl⟩

/-- An id carried by an upserted point is in the store afterwards. -/
lemma mem_ids_of_mem_pts_ids (pts store : List VPoint) (x : String)
    (h : x ∈ pts.map VPoint.id) :
    x ∈ (upsertPoints store pts).map VPoint.id := by
  rcases List.mem_map.1 h with ⟨p, hp, rfl⟩
  exact ids_subset_upsertPoints pts store p hp

/-! ## Claim C4 -/

/-- Claim C4: an exception at any ingestion step is caught, the Document is
marked FAILED with the error message recorded and `retry_count`
incremented, and the error is re-raised to the background-task caller (the
`.error` in the hypothesis is the re-raised exception); no rollback of
already-written vectors is performed — ids present in the vector store
before the run survive the failure, and when the failure happens at the
final commit (after the upsert), all the deterministic chunk vector ids are
in the store even though the document is FAILED. -/
theorem C4_failure_marks_failed (env : IngestEnv) (docId filename : String)
    (w : World) (e : String)
    (herr : (process_document_background env docId filename w).2 = .error e) :
    (process_document_background env docId filename w).1.doc.status = "failed" ∧
    (process_document_background env docId filename w).1.doc.error_message = some e ∧
    (process_document_background env docId filename w).1.doc.retry_count =
      w.doc.retry_count + 1 ∧
    (∀ x ∈ w.vstore.map VPoint.id,
      x ∈ (process_document_background env docId filename w).1.vstore.map VPoint.id) ∧
    (∀ (text : String) (numPages : ℕ) (usedOcr : Bool)
        (embeddings : List (List ℚ)) (calls : List String),
      env.parseResult = .ok (text, numPages, usedOcr) →
      generate_embeddings_batch env.provider
        ((chunk_text env.split text none).map ChunkRec.content) none =
          (.ok embeddings, calls) →
      ∀ i, i < (chunk_text env.split text none).length →
        mkVid docId i ∈
          (process_document_background env docId filename w).1.vstore.map VPoint.id) := by
  cases hp : env.parseResult with
  | error e0 =>
    rw [process_parse_error env docId filename w e0 hp] at herr ⊢
    simp only at herr
    injection herr with he
    subst he
    refine ⟨rfl, rfl, rfl, fun x hx => hx, ?_⟩
    intro text numPages usedOcr embeddings calls hp2
    exact absurd hp2 (by simp)
  | ok triple =>
    rcases triple with ⟨text, numPages, usedOcr⟩
    rcases hbatch : generate_embeddings_batch env.provider
        ((chunk_text env.split text none).map ChunkRec.content) none with ⟨res, calls⟩
    cases res with
    | error e0 =>
      have hb1 : (generate_embeddings_batch env.provider
          ((chunk_text env.split text none).map ChunkRec.content) none).1 = .error e0 := by
        rw [hbatch]
      rw [process_embed_error env docId filename w text numPages usedOcr e0 hp hb1]
        at herr ⊢
      simp only at herr
      injection herr with he
      subst he
      refine ⟨rfl, rfl, rfl, fun x hx => hx, ?_⟩
      intro text2 numPages2 usedOcr2 embeddings2 calls2 hp2 hb2
      injection hp2 with hp2
      injection hp2 with hpt hp2
      subst hpt
      rw [hbatch] at hb2
      injection hb2 with hb2
      exact absurd hb2 (by simp)
    | ok embeddings =>
      cases hc : env.commitResult with
      | error e0 =>
        rw [process_commit_error env docId filename w text numPages usedOcr
          embeddings calls e0 hp hbatch hc] at herr ⊢
        simp only at herr
        injection herr with he
        subst he
        have hlen : embeddings.length = (chunk_text env.split text none).length := by
          have := batch_ok_length env.provider _ none embeddings calls hbatch
          simpa using this
        refine ⟨rfl, rfl, rfl, ?_, ?_⟩
        · intro x hx
          exact mem_ids_upsertPoints _ w.vstore x hx
        · intro text2 numPages2 usedOcr2 embeddings2 calls2 hp2 hb2 i hi
          injection hp2 with hp2
          injection hp2 with hpt hp2
          subst hpt
          refine mem_ids_of_mem_pts_ids _ w.vstore (mkVid docId i) ?_
          rw [ingest_pts_ids docId filename env.split text embeddings hlen]
          exact mkVid_mem_ingestVectorIds docId _ i hi
      | ok u =>
        cases u
        rw [process_ok env docId filename w text numPages usedOcr embeddings calls
          hp hbatch hc] at herr
        simp only at herr
        cases herr

/-- Witness for C4 at a concrete parse failure. -/
theorem C4_witness :
    (process_document_background
      (IngestEnv.mk (fun t => [t]) (.error "parse failed") (fun _ => .ok [(1 : ℚ)]) (.ok ()))
      "doc" "f.pdf"
      (World.mk (DocState.mk "uploaded" none 0 0 0 0) [] [])).2 = .error "parse failed" ∧
    (process_document_background
      (IngestEnv.mk (fun t => [t]) (.error "parse failed") (fun _ => .ok [(1 : ℚ)]) (.ok ()))
      "doc" "f.pdf"
      (World.mk (DocState.mk "uploaded" none 0 0 0 0) [] [])).1.doc.status = "failed" ∧
    (process_document_background
      (IngestEnv.mk (fun t => [t]) (.error "parse failed") (fun _ => .ok [(1 : ℚ)]) (.ok ()))
      "doc" "f.pdf"
      (World.mk (DocState.mk "uploaded" none 0 0 0 0) [] [])).1.doc.error_message =
        some "parse failed" ∧
    (process_document_background
      (IngestEnv.mk (fun t => [t]) (.error "parse failed") (fun _ => .ok [(1 : ℚ)]) (.ok ()))
      "doc" "f.pdf"
      (World.mk (DocState.mk "uploaded" none 0 0 0 0) [] [])).1.doc.retry_count = 0 + 1 := by
  have h := C4_failure_marks_failed
    (IngestEnv.mk (fun t => [t]) (.error "parse failed") (fun _ => .ok [(1 : ℚ)]) (.ok ()))
    "doc" "f.pdf" (World.mk (DocState.mk "uploaded" none 0 0 0 0) [] [])
    "parse failed" rfl
  exact ⟨rfl, h.1, h.2.1, h.2.2.1⟩

/-! ## Claim C1 -/

/-- Claim C1: when an ingestion run reaches status COMPLETED, the persisted
chunk rows of that run carry `id = vector_id = document_id ++ "_chunk_" ++
position`, every such deterministic id has exactly one vector in the store
(it is present, and the store ids stay pairwise distinct), and re-running
the same ingestion on the resulting state upserts the same id set, leaving
the stored id list unchanged — overwriting rather than duplicating. -/
theorem C1_completed_one_vector_per_chunk (env : IngestEnv)
    (docId filename : String) (w : World)
    (hok : (process_document_background env docId filename w).2 = .ok ())
    (hnd : (w.vstore.map VPoint.id).Nodup) :
    (process_document_background env docId filename w).1.doc.status = "completed" ∧
    ∃ text numPages usedOcr,
      env.parseResult = .ok (text, numPages, usedOcr) ∧
      (process_document_background env docId filename w).1.doc.total_chunks =
        (chunk_text env.split text none).length ∧
      (process_document_background env docId filename w).1.rows =
        w.rows ++ ingestRows docId (chunk_text env.split text none) ∧
      (∀ i, ∀ hi : i < (chunk_text env.split text none).length,
        ∃ hr : i < (ingestRows docId (chunk_text env.split text none)).length,
          ((ingestRows docId (chunk_text env.split text none)).get ⟨i, hr⟩).id =
            mkVid docId i ∧
          ((ingestRows docId (chunk_text env.split text none)).get ⟨i, hr⟩).vector_id =
            mkVid docId i) ∧
      (∀ i, i < (chunk_text env.split text none).length →
        mkVid docId i ∈
          (process_document_background env docId filename w).1.vstore.map VPoint.id) ∧
      ((process_document_background env docId filename w).1.vstore.map VPoint.id).Nodup ∧
      (process_document_background env docId filename
          (process_document_background env docId filename w).1).1.vstore.map VPoint.id =
        (process_document_background env docId filename w).1.vstore.map VPoint.id := by
  cases hp : env.parseResult with
  | error e0 =>
    rw [process_parse_error env docId filename w e0 hp] at hok
    cases hok
  | ok triple =>
    rcases triple with ⟨text, numPages, usedOcr⟩
    rcases hbatch : generate_embeddings_batch env.provider
        ((chunk_text env.split text none).map ChunkRec.content) none with ⟨res, calls⟩
    cases res with
    | error e0 =>
      have hb1 : (generate_embeddings_batch env.provider
          ((chunk_text env.split text none).map ChunkRec.content) none).1 = .error e0 := by
        rw [hbatch]
      rw [process_embed_error env docId filename w text numPages usedOcr e0 hp hb1] at hok
      cases hok
    | ok embeddings =>
      cases hc : env.commitResult with
      | error e0 =>
        rw [process_commit_error env docId filename w text numPages usedOcr
          embeddings calls e0 hp hbatch hc] at hok
        cases hok
      | ok u =>
        cases u
        have hlen : embeddings.length = (chunk_text env.split text none).length := by
          have := batch_ok_length env.provider _ none embeddings calls hbatch
          simpa using this
        have hrun := process_ok env docId filename w text numPages usedOcr
          embeddings calls hp hbatch hc
        rw [hrun]
        have hptsids := ingest_pts_ids docId filename env.split text embeddings hlen
        refine ⟨rfl, text, numPages, usedOcr, rfl, rfl, rfl, ?_, ?_, ?_, ?_⟩
        · intro i hi
          have hr : i < (ingestRows docId (chunk_text env.split text none)).length := by
            rw [(ingest_lengths docId filename (chunk_text env.split text none)).2.2]
            exact hi
          refine ⟨hr, ?_, ?_⟩
          · rw [List.get_eq_getElem]
            simp only [ingestRows, List.getElem_map, List.getElem_enum]
          · rw [List.get_eq_getElem]
            simp only [ingestRows, List.getElem_map, List.getElem_enum]
        · intro i hi
          refine mem_ids_of_mem_pts_ids _ w.vstore (mkVid docId i) ?_
          rw [hptsids]
          exact mkVid_mem_ingestVectorIds docId _ i hi
        · exact nodup_ids_upsertPoints _ w.vstore hnd
        · rw [process_ok env docId filename _ text numPages usedOcr
            embeddings calls hp hbatch hc]
          simp only
          refine ids_upsertPoints_of_subset _ _ ?_
          intro p hp2
          refine mem_ids_of_mem_pts_ids _ w.vstore p.id ?_
          exact List.mem_map.2 ⟨p, hp2, rfl⟩

/-- Witness for C1 at a concrete successful ingestion of a two-piece
document into an empty world. -/
theorem C1_witness :
    (process_document_background
      (IngestEnv.mk (fun _ => ["he", "llo"]) (.ok ("hello", 1, false))
        (fun _ => .ok [(1 : ℚ), 2]) (.ok ()))
      "doc" "f.pdf"
      (World.mk (DocState.mk "uploaded" none 0 0 0 0) [] [])).2 = .ok () ∧
    (process_document_background
      (IngestEnv.mk (fun _ => ["he", "llo"]) (.ok ("hello", 1, false))
        (fun _ => .ok [(1 : ℚ), 2]) (.ok ()))
      "doc" "f.pdf"
      (World.mk (DocState.mk "uploaded" none 0 0 0 0) [] [])).1.doc.status =
        "completed" := by
  have hok : (process_document_background
      (IngestEnv.mk (fun _ => ["he", "llo"]) (.ok ("hello", 1, false))
        (fun _ => .ok [(1 : ℚ), 2]) (.ok ()))
      "doc" "f.pdf"
      (World.mk (DocState.mk "uploaded" none 0 0 0 0) [] [])).2 = .ok () := by
    rw [process_ok (IngestEnv.mk (fun _ => ["he", "llo"]) (.ok ("hello", 1, false))
        (fun _ => .ok [(1 : ℚ), 2]) (.ok ()))
      "doc" "f.pdf" (World.mk (DocState.mk "uploaded" none 0 0 0 0) [] [])
      "hello" 1 false [[(1 : ℚ), 2], [(1 : ℚ), 2]] ["he", "llo"] rfl ?_ rfl]
    unfold generate_embeddings_batch
    rw [if_neg (by simp [chunk_text, pyBlank])]
    rw [batchLoop_eq_embedSeq _ _ (effectiveBatchSize_pos none)]
    simp [chunk_text, embedSeq, generate_embedding, pyBlank]
  have h := C1_completed_one_vector_per_chunk
    (IngestEnv.mk (fun _ => ["he", "llo"]) (.ok ("hello", 1, false))
      (fun _ => .ok [(1 : ℚ), 2]) (.ok ()))
    "doc" "f.pdf" (World.mk (DocState.mk "uploaded" none 0 0 0 0) [] [])
    hok (by decide)
  exact ⟨hok, h.1⟩

end DynamicRag
